import Mathlib

/-!
Shallow embedding of `src/discord_stats.py` (SakuraMochiii/discord-data-viewer).

The embedding models, faithfully to the Python source:
* CPython `datetime.strptime` for the two formats used by the script,
  including the exact per-directive regular expressions of `_strptime.py`
  and the validation performed by the `datetime` constructor;
* `parse_package` over a model of the zip container, where each optional
  sub-entry is either absent (`KeyError` on open), present but not JSON
  (`json.JSONDecodeError` on load), or a parsed value;
* every section of `compute_stats`.  The longest-streak section calls
  `strptime` on raw 10-character date prefixes without a `try`, so it can
  raise `ValueError`; the embedding returns `Option` there and `none`
  models the uncaught exception.

Python values are modeled as: `str` by `String` (code-point lists; Python
indexing/slicing is by code point), `dict` counters by insertion-ordered
association lists, `list.sort` / `sorted` / `Counter.most_common` by a
stable insertion sort.
-/

/-- Python slicing `s[:n]` (by code points). -/
def pyTake (s : String) (n : Nat) : String := ⟨s.data.take n⟩

/-- Lexicographic strict order on code-point lists — Python's `<` on
strings. -/
def listLt : List Char → List Char → Bool
  | _, [] => false
  | [], _ :: _ => true
  | a :: as, b :: bs =>
    if a.toNat < b.toNat then true
    else if b.toNat < a.toNat then false
    else listLt as bs

/-- Python's `<` on strings (lexicographic by code point). -/
def strLt (a b : String) : Bool := listLt a.data b.data

/-- Stable ascending insertion: walk past strictly smaller elements, so an
element inserted later (originally earlier in the scan) precedes equal
ones — the order produced by Python's stable `sorted`. -/
def insertAscBy {α : Type} (lt : α → α → Bool) (x : α) : List α → List α
  | [] => [x]
  | y :: ys => if lt y x then y :: insertAscBy lt x ys else x :: y :: ys

/-- Python `sorted` with a strict comparison `lt`. -/
def sortAscBy {α : Type} (lt : α → α → Bool) : List α → List α
  | [] => []
  | x :: xs => insertAscBy lt x (sortAscBy lt xs)

/-- Python truthiness-based `a or b` for strings. -/
def pyOr (a b : String) : String := if a = "" then b else a

/-- Numeric value of an ASCII digit. -/
def digitVal (c : Char) : Nat := c.toNat - 48

/-- The ASCII whitespace characters matched by a whitespace run in a
`strptime` format (the format's literal blank compiles to a whitespace
regular expression; inputs here are ASCII). -/
def pyIsSpace (c : Char) : Bool :=
  c = ' ' || c = '\t' || c = '\n' || c = '\x0b' || c = '\x0c' || c = '\r'

/-- Gregorian leap-year test, as in Python's `calendar`/`datetime`. -/
def isLeap (y : Nat) : Bool := y % 4 == 0 && (y % 100 != 0 || y % 400 == 0)

/-- Number of days in month `m` (1-12) of a year with leapness `leap`. -/
def monthDays (leap : Bool) (m : Nat) : Nat :=
  match m with
  | 1 => 31 | 2 => if leap then 29 else 28 | 3 => 31 | 4 => 30
  | 5 => 31 | 6 => 30 | 7 => 31 | 8 => 31 | 9 => 30 | 10 => 31
  | 11 => 30 | 12 => 31 | _ => 0

/-- Days in the months strictly before month `m`. -/
def daysBeforeMonth (leap : Bool) (m : Nat) : Nat :=
  ((List.range' 1 (m - 1)).map (monthDays leap)).sum

/-- Proleptic-Gregorian day ordinal (`date.toordinal`: 0001-01-01 is day 1).
Python's `(curr - prev).days` for two dates is exactly the difference of
their ordinals. -/
def toOrdinal (y m d : Nat) : Nat :=
  365 * (y - 1) + ((y - 1) / 4 - (y - 1) / 100 + (y - 1) / 400)
    + daysBeforeMonth (isLeap y) m + d

/-- CPython `_strptime` directive `%Y`: exactly four digits. -/
def readYear : List Char → Option (Nat × List Char)
  | a :: b :: c :: d :: rest =>
    if a.isDigit ∧ b.isDigit ∧ c.isDigit ∧ d.isDigit then
      some (1000 * digitVal a + 100 * digitVal b + 10 * digitVal c + digitVal d, rest)
    else none
  | _ => none

/-- CPython `_strptime` directive `%m`: alternatives `1[0-2]`, `0[1-9]`,
`[1-9]`, tried in this order.  Committing to the first alternative that
matches is equivalent to the regular expression with backtracking here,
because whenever a two-digit alternative matches, the character after the
first digit is a digit, so it can never satisfy the separator or
end-of-string that follows the directive in the formats used. -/
def readMonth : List Char → Option (Nat × List Char)
  | '1' :: c :: rest =>
    if '0' ≤ c ∧ c ≤ '2' then some (10 + digitVal c, rest) else some (1, c :: rest)
  | '0' :: c :: rest =>
    if '1' ≤ c ∧ c ≤ '9' then some (digitVal c, rest) else none
  | c :: rest =>
    if '1' ≤ c ∧ c ≤ '9' then some (digitVal c, rest) else none
  | [] => none

/-- CPython `_strptime` directive `%d`: alternatives `3[01]`, `[1-2][0-9]`,
`0[1-9]`, `[1-9]`, in this order (same committed-choice argument). -/
def readDay : List Char → Option (Nat × List Char)
  | '3' :: c :: rest =>
    if c = '0' ∨ c = '1' then some (30 + digitVal c, rest)
    else some (3, c :: rest)
  | '1' :: c :: rest =>
    if c.isDigit then some (10 + digitVal c, rest) else some (1, c :: rest)
  | '2' :: c :: rest =>
    if c.isDigit then some (20 + digitVal c, rest) else some (2, c :: rest)
  | '0' :: c :: rest =>
    if '1' ≤ c ∧ c ≤ '9' then some (digitVal c, rest) else none
  | c :: rest =>
    if '1' ≤ c ∧ c ≤ '9' then some (digitVal c, rest) else none
  | [] => none

/-- CPython `_strptime` directive `%H`: alternatives `2[0-3]`, `[0-1][0-9]`,
`[0-9]`, in this order. -/
def readHour : List Char → Option (Nat × List Char)
  | '2' :: c :: rest =>
    if '0' ≤ c ∧ c ≤ '3' then some (20 + digitVal c, rest) else some (2, c :: rest)
  | c :: d :: rest =>
    if (c = '0' ∨ c = '1') ∧ d.isDigit then some (10 * digitVal c + digitVal d, rest)
    else if c.isDigit then some (digitVal c, d :: rest)
    else none
  | [c] => if c.isDigit then some (digitVal c, []) else none
  | [] => none

/-- CPython `_strptime` directive `%M`: alternatives `[0-5][0-9]`, `[0-9]`. -/
def readMin : List Char → Option (Nat × List Char)
  | c :: d :: rest =>
    if '0' ≤ c ∧ c ≤ '5' ∧ d.isDigit then some (10 * digitVal c + digitVal d, rest)
    else if c.isDigit then some (digitVal c, d :: rest)
    else none
  | [c] => if c.isDigit then some (digitVal c, []) else none
  | [] => none

/-- CPython `_strptime` directive `%S`: alternatives `6[0-1]`, `[0-5][0-9]`,
`[0-9]` (leap seconds 60 and 61 are accepted by the regular expression and
rejected later by the `datetime` constructor). -/
def readSec : List Char → Option (Nat × List Char)
  | '6' :: c :: rest =>
    if c = '0' ∨ c = '1' then some (60 + digitVal c, rest) else some (6, c :: rest)
  | c :: d :: rest =>
    if '0' ≤ c ∧ c ≤ '5' ∧ d.isDigit then some (10 * digitVal c + digitVal d, rest)
    else if c.isDigit then some (digitVal c, d :: rest)
    else none
  | [c] => if c.isDigit then some (digitVal c, []) else none
  | [] => none

/-- Consume one literal character. -/
def expectChar (c : Char) : List Char → Option (List Char)
  | d :: rest => if d = c then some rest else none
  | [] => none

/-- Consume the one-or-more-whitespace run that a literal blank in a
`strptime` format compiles to. -/
def skipWS : List Char → Option (List Char)
  | c :: rest => if pyIsSpace c then some (rest.dropWhile pyIsSpace) else none
  | [] => none

/-- The `%Y-%m-%d` part shared by both formats used in the source. -/
def readDatePart (l : List Char) : Option (Nat × Nat × Nat × List Char) := do
  let (y, l) ← readYear l
  let l ← expectChar '-' l
  let (m, l) ← readMonth l
  let l ← expectChar '-' l
  let (d, l) ← readDay l
  pure (y, m, d, l)

/-- `datetime.strptime(s, "%Y-%m-%d")` (used on date prefixes in the streak
section), returning the day ordinal of the parsed date, or `none` for the
`ValueError` raised on a failed match, trailing unconverted data, or an
invalid calendar date (the `datetime` constructor requires year at least 1
and a day that exists in the month). -/
def parseDate (s : String) : Option Nat :=
  match readDatePart s.data with
  | some (y, m, d, []) =>
    if 1 ≤ y ∧ d ≤ monthDays (isLeap y) m then some (toOrdinal y m d) else none
  | _ => none

/-- A parsed `datetime` as used by `compute_stats`. -/
structure TS where
  year : Nat
  month : Nat
  day : Nat
  hour : Nat
  minute : Nat
  second : Nat
deriving DecidableEq, Repr

/-- `date.toordinal` of the date part. -/
def TS.ord (t : TS) : Nat := toOrdinal t.year t.month t.day

/-- `datetime.weekday()`: Monday is 0.  0001-01-01 (ordinal 1) is a Monday. -/
def TS.weekday (t : TS) : Nat := (t.ord + 6) % 7

/-- `datetime.strptime(s, "%Y-%m-%d %H:%M:%S")` as applied to `ts[:19]` in
`compute_stats`, returning `none` for the `ValueError` on failure. -/
def parseTS (s : String) : Option TS :=
  match readDatePart s.data with
  | none => none
  | some (y, m, d, rest) =>
    match skipWS rest with
    | none => none
    | some rest =>
      match readHour rest with
      | none => none
      | some (h, rest) =>
        match expectChar ':' rest with
        | none => none
        | some rest =>
          match readMin rest with
          | none => none
          | some (mi, rest) =>
            match expectChar ':' rest with
            | none => none
            | some rest =>
              match readSec rest with
              | none => none
              | some (sec, rest) =>
                if rest = [] ∧ 1 ≤ y ∧ d ≤ monthDays (isLeap y) m ∧ sec ≤ 59 then
                  some ⟨y, m, d, h, mi, sec⟩
                else none


/-- A raw message record: `msg.get("Timestamp", "")` and
`msg.get("Contents", "")` are modeled by fields defaulting to `""` (a
missing key and an empty value are indistinguishable to the script), and
`msg.get("Attachments")` only ever feeds truthiness tests, modeled by a
`Bool`. -/
structure Msg where
  Timestamp : String := ""
  Contents : String := ""
  Attachments : Bool := false
deriving DecidableEq, Repr

/-- A message after `parse_package` tags it with `_channel`, `_group` and
`_type`. -/
structure NormMsg where
  Timestamp : String := ""
  Contents : String := ""
  Attachments : Bool := false
  channel : String := ""
  group : String := ""
  type : String := ""
deriving DecidableEq, Repr

/-- The tagging loop `msg["_channel"] = display; ...`. -/
def Msg.tag (m : Msg) (channel group type : String) : NormMsg :=
  ⟨m.Timestamp, m.Contents, m.Attachments, channel, group, type⟩

/-- One entry of the `channels` list built by `parse_package`. -/
structure Channel where
  id : String
  name : String
  group : String
  type : String
  message_count : Nat
  recipients : List String
deriving DecidableEq, Repr

/-- State of one optional zip sub-entry: absent (`KeyError` when opened),
present but not valid JSON (`json.JSONDecodeError` when loaded), or a
parsed value of the expected shape. -/
inductive ZEntry (α : Type) where
  | absent : ZEntry α
  | badJson : ZEntry α
  | val : α → ZEntry α
deriving DecidableEq, Repr

/-- The fields of `channel.json` the script reads.  `chType` models
`meta.get("type", "UNKNOWN")` (`none` when the key is missing);
`guildName` models `guild.get("name", "") if guild else ""` with the
default already applied (every use is by truthiness); `chName` likewise
models `meta.get("name", "")`. -/
structure ChanMeta where
  chType : Option String := none
  guildName : String := ""
  chName : String := ""
  recipients : List String := []
deriving DecidableEq, Repr

/-- The only field of `Account/user.json` that `parse_package` reads
besides passing the record through. -/
structure UserJson where
  id : String := ""
deriving DecidableEq, Repr

/-- One channel directory `Messages/c<id>/` with its two optional
sub-entries. -/
structure RawChannel where
  cid : String
  meta : ZEntry ChanMeta
  msgs : ZEntry (List Msg)
deriving DecidableEq, Repr

/-- The model of an opened zip container.  `channels` lists the channel
directories found in the name list; directory names are `"c" + id`, so
`sorted(channel_dirs)` is sorting by `cid` (all names share the one-byte
prefix `"c"`). -/
structure Archive where
  index : ZEntry (List (String × String))
  user : ZEntry UserJson
  channels : List RawChannel

/-- The Python exceptions relevant to `parse_package`'s boundary. -/
inductive PyErr where
  | archiveNotFound : PyErr
  | jsonDecodeError : PyErr
deriving DecidableEq, Repr

/-- The literal prefix of a DM index hint. -/
def dmLit : List Char := "Direct Message with ".data

/-- Whether `rest` can follow the captured name in
`re.match(r"Direct Message with (.+?)(?:#\d+)?$", ...)`: the optional
group then `$`, where Python's `$` matches at the end or just before a
final newline. -/
def tailOk : List Char → Bool
  | [] => true
  | ['\n'] => true
  | '#' :: rest =>
    (rest.takeWhile Char.isDigit ≠ []) &&
      (rest.dropWhile Char.isDigit = [] || rest.dropWhile Char.isDigit = ['\n'])
  | _ => false

/-- The non-greedy capture `(.+?)`: the shortest nonempty newline-free
prefix whose remainder satisfies `tailOk`. -/
def dmScan : List Char → Option (List Char)
  | [] => none
  | c :: rest =>
    if c = '\n' then none
    else if tailOk rest then some [c]
    else (dmScan rest).map (c :: ·)

/-- `re.match(r"Direct Message with (.+?)(?:#\d+)?$", idx_val)`, returning
the captured group. -/
def dmMatch (s : String) : Option String :=
  if dmLit.isPrefixOf s.data then (dmScan (s.data.drop dmLit.length)).map (⟨·⟩)
  else none

/-- Python `str.replace(pat, "")`: remove every occurrence, scanning left
to right, non-overlapping.  Structural recursion on a character budget so
the definition evaluates by `rfl`. -/
def removeAllAux (pat : List Char) : Nat → List Char → List Char
  | _, [] => []
  | 0, l => l
  | fuel + 1, c :: rest =>
    if pat.isPrefixOf (c :: rest) then removeAllAux pat fuel ((c :: rest).drop pat.length)
    else c :: removeAllAux pat fuel rest

def removeAll (pat l : List Char) : List Char :=
  if pat = [] then l else removeAllAux pat l.length l

/-- The `ch_type == "DM"` branch of the resolver (lines 67-72): the regular
expression match, else `idx_val.replace("Direct Message with ", "")`. -/
def resolveDM (idxVal : String) : String × String :=
  match dmMatch idxVal with
  | some n => (n, "Direct Messages")
  | none => (⟨removeAll dmLit idxVal.data⟩, "Direct Messages")

/-- The separator of guild hints. -/
def sepIn : List Char := " in ".data

/-- Split at the first occurrence of `" in "`; `none` when the separator
does not occur (`" in " in idx_val` is false). -/
def splitInFirst : List Char → Option (List Char × List Char)
  | [] => none
  | c :: rest =>
    if sepIn.isPrefixOf (c :: rest) then some ([], (c :: rest).drop sepIn.length)
    else (splitInFirst rest).map (fun p => (c :: p.1, p.2))

/-- The display-name/group resolution of lines 60-83, given the channel
type, `ch_name`, `guild_name`, the channel id and the index hint. -/
def resolveChannel (chType chName guildName cid idxVal : String) : String × String :=
  if chType = "DM" then resolveDM idxVal
  else if chType = "GROUP_DM" then
    (pyOr chName (pyOr idxVal "Group DM"), "Group DMs")
  else
    match splitInFirst idxVal.data with
    | some (l, r) => ("#" ++ (⟨l⟩ : String), (⟨r⟩ : String))
    | none =>
      (if chName ≠ "" then "#" ++ chName else "#" ++ cid,
       if guildName ≠ "" then guildName else "Unknown Server")

/-- `index.get(channel_id, "")`. -/
def indexGet (index : List (String × String)) (cid : String) : String :=
  match index.find? (fun p => p.1 == cid) with
  | some p => p.2
  | none => ""

/-- The per-channel loop of `parse_package` (lines 44-98) over an
already-sorted list of channel directories: a channel whose metadata entry
is absent or malformed is skipped (`continue`); an absent or malformed
message-list entry degrades to `[]`; otherwise the channel summary is
appended and its tagged messages extend the unified stream. -/
def processChannels (index : List (String × String)) :
    List RawChannel → List Channel × List NormMsg
  | [] => ([], [])
  | rc :: rest =>
    let acc := processChannels index rest
    match rc.meta with
    | ZEntry.val meta =>
      let messages := match rc.msgs with
        | ZEntry.val ms => ms
        | _ => []
      let chType := meta.chType.getD "UNKNOWN"
      let idxVal := indexGet index rc.cid
      let dg := resolveChannel chType meta.chName meta.guildName rc.cid idxVal
      (⟨rc.cid, dg.1, dg.2, chType, messages.length, meta.recipients⟩ :: acc.1,
       messages.map (fun m => m.tag dg.1 dg.2 chType) ++ acc.2)
    | _ => acc

/-- The value `parse_package` returns. -/
structure ParseResult where
  channels : List Channel
  messages : List NormMsg
  user : UserJson
deriving DecidableEq, Repr

/-- `parse_package` on an opened container.  The index and user loads wrap
only `KeyError` (lines 19-31), so a present-but-malformed top-level entry
raises `json.JSONDecodeError`; the per-channel entries are handled by
`processChannels`. -/
def parsePackage (a : Archive) : Except PyErr ParseResult := do
  let index ← match a.index with
    | ZEntry.absent => pure []
    | ZEntry.badJson => throw PyErr.jsonDecodeError
    | ZEntry.val m => pure m
  let user ← match a.user with
    | ZEntry.absent => pure {}
    | ZEntry.badJson => throw PyErr.jsonDecodeError
    | ZEntry.val u => pure u
  let sortedChs := sortAscBy (fun x y : RawChannel => strLt x.cid y.cid) a.channels
  let cm := processChannels index sortedChs
  return ⟨cm.1, cm.2, user⟩

/-- `zipfile.ZipFile(zip_path)` either opens the container or raises; the
spec calls the failure `ArchiveNotFound`. -/
def openPackage : Option Archive → Except PyErr ParseResult
  | none => Except.error PyErr.archiveNotFound
  | some a => parsePackage a


/-- Insertion step of a stable descending sort on the key `f`: walk past
strictly larger keys, insert before the first key that is not larger, so
elements with equal keys keep their original relative order — the
behaviour of Python's stable `list.sort(key=lambda x: -count)` and of
`Counter.most_common`. -/
def insertDesc {α : Type} (f : α → Nat) (x : α) : List α → List α
  | [] => [x]
  | y :: ys => if f x < f y then y :: insertDesc f x ys else x :: y :: ys

/-- Stable sort by descending key. -/
def sortDescBy {α : Type} (f : α → Nat) : List α → List α
  | [] => []
  | x :: xs => insertDesc f x (sortDescBy f xs)

/-- An insertion-ordered counter bump: `Counter[k] += n` / `defaultdict`
accumulation (Python dicts preserve first-insertion order of keys). -/
def addCount {κ : Type} [DecidableEq κ] : List (κ × Nat) → κ → Nat → List (κ × Nat)
  | [], g, n => [(g, n)]
  | (k, v) :: rest, g, n =>
    if k = g then (k, v + n) :: rest else (k, v) :: addCount rest g n

/-- An entry of the DM / group-DM / server rankings. -/
structure RankEntry where
  name : String
  count : Nat
deriving DecidableEq, Repr

/-- An entry of the server-channel ranking. -/
structure ChanEntry where
  name : String
  server : String
  count : Nat
deriving DecidableEq, Repr

/-- `c["type"] in ("DM", "GROUP_DM")`. -/
def isDmType (t : String) : Bool := t == "DM" || t == "GROUP_DM"

/-- The filtered list behind `top_dms` (lines 122-126), in channel order. -/
def dmPre (channels : List Channel) : List RankEntry :=
  (channels.filter (fun c => c.type == "DM" && decide (c.message_count > 0))).map
    (fun c => ⟨c.name, c.message_count⟩)

def topDms (channels : List Channel) : List RankEntry :=
  (sortDescBy RankEntry.count (dmPre channels)).take 25

/-- The filtered list behind `top_group_dms` (lines 130-134). -/
def gdmPre (channels : List Channel) : List RankEntry :=
  (channels.filter (fun c => c.type == "GROUP_DM" && decide (c.message_count > 0))).map
    (fun c => ⟨c.name, c.message_count⟩)

def topGroupDms (channels : List Channel) : List RankEntry :=
  (sortDescBy RankEntry.count (gdmPre channels)).take 15

/-- The `defaultdict(int)` accumulation of lines 138-141: message counts
per group over non-DM channels, keys in first-access order. -/
def serverFold (channels : List Channel) : List (String × Nat) :=
  channels.foldl
    (fun acc c => if isDmType c.type then acc else addCount acc c.group c.message_count) []

def serverPre (channels : List Channel) : List RankEntry :=
  ((serverFold channels).filter (fun p => decide (p.2 > 0))).map (fun p => ⟨p.1, p.2⟩)

def topServers (channels : List Channel) : List RankEntry :=
  (sortDescBy RankEntry.count (serverPre channels)).take 20

/-- The filtered list behind `top_channels` (lines 148-156). -/
def chanPre (channels : List Channel) : List ChanEntry :=
  (channels.filter (fun c => !isDmType c.type && decide (c.message_count > 0))).map
    (fun c => ⟨c.name, c.group, c.message_count⟩)

def topChannels (channels : List Channel) : List ChanEntry :=
  (sortDescBy ChanEntry.count (chanPre channels)).take 20

/-- The datetimes obtained by the guarded loop of lines 167-178: skip an
empty timestamp, parse `ts[:19]`, skip on `ValueError`. -/
def parsedTimes (msgs : List NormMsg) : List TS :=
  msgs.filterMap (fun m => if m.Timestamp = "" then none else parseTS (pyTake m.Timestamp 19))

/-- Zero-padded two-digit rendering (`%m`). -/
def pad2 (n : Nat) : String := if n < 10 then "0" ++ toString n else toString n

/-- `dt.strftime("%Y-%m")`.  (`%Y` is rendered unpadded as on Linux
CPython; all years reaching this point have four digits anyway.) -/
def ymKey (t : TS) : String := toString t.year ++ "-" ++ pad2 t.month

/-- `sorted(monthly.items())` (keys are distinct, so this is ordering by
key). -/
def monthlyStat (msgs : List NormMsg) : List (String × Nat) :=
  sortAscBy (fun a b => strLt a.1 b.1)
    ((parsedTimes msgs).foldl (fun acc t => addCount acc (ymKey t) 1) [])

/-- `hourly.get(h, 0)`. -/
def hourCount (msgs : List NormMsg) (h : Nat) : Nat :=
  (parsedTimes msgs).countP (fun t => t.hour == h)

/-- `stats["hourly"] = [(h, hourly.get(h, 0)) for h in range(24)]`. -/
def hourlyStat (msgs : List NormMsg) : List (Nat × Nat) :=
  (List.range 24).map (fun h => (h, hourCount msgs h))

def dowNames : List String := ["Mon", "Tue", "Wed", "Thu", "Fri", "Sat", "Sun"]

/-- `stats["daily_dow"]` (line 182). -/
def dailyDowStat (msgs : List NormMsg) : List (String × Nat) :=
  (List.range 7).map
    (fun d => (dowNames.getD d "", (parsedTimes msgs).countP (fun t => t.weekday == d)))

/-- `sorted(yearly.items())`. -/
def yearlyStat (msgs : List NormMsg) : List (Nat × Nat) :=
  sortAscBy (fun a b => decide (a.1 < b.1))
    ((parsedTimes msgs).foldl (fun acc t => addCount acc t.year 1) [])

/-- The contents of messages with truthy `Contents` (lines 186, 191). -/
def contentsList (msgs : List NormMsg) : List String :=
  (msgs.filter (fun m => m.Contents ≠ "")).map (·.Contents)

/-- Runs of characters satisfying `p`, in order — the matches of the
one-character-class-repeated patterns (`re.findall` of `[...]+`) and the
fields of no-argument `str.split`. -/
def runsAux (p : Char → Bool) (cur : List Char) : List Char → List (List Char)
  | [] => if cur = [] then [] else [cur]
  | c :: rest =>
    if p c then runsAux p (cur ++ [c]) rest
    else if cur = [] then runsAux p [] rest
    else cur :: runsAux p [] rest

/-- Python `str.split()` (split on whitespace runs, no empty fields). -/
def pySplit (s : String) : List String :=
  (runsAux (fun c => !pyIsSpace c) [] s.data).map (⟨·⟩)

/-- The `(max, total_characters, total_words)` triple of lines 186-196
(the float `avg_msg_length` is presentation-only and not modeled). -/
def msgLengthStats (msgs : List NormMsg) : Nat × Nat × Nat :=
  let lengths := (contentsList msgs).map String.length
  if lengths = [] then (0, 0, 0)
  else (lengths.foldl max 0, lengths.sum,
    ((contentsList msgs).map (fun s => (pySplit s).length)).sum)

/-- ASCII lowercasing, `str.lower` on the ASCII inputs considered here. -/
def lowerChar (c : Char) : Char :=
  if 'A' ≤ c ∧ c ≤ 'Z' then Char.ofNat (c.toNat + 32) else c

def pyLower (s : String) : String := ⟨s.data.map lowerChar⟩

/-- The character class `[a-zA-Z']`. -/
def isWordAp (c : Char) : Bool := c.isAlpha || c = '\''

/-- `re.findall(r"[a-zA-Z']+", text.lower())`. -/
def wordTokens (text : String) : List String :=
  (runsAux isWordAp [] (pyLower text).data).map (⟨·⟩)

/-- The stop-word set of lines 204-218, verbatim. -/
def stopwords : List String :=
  ["the", "a", "an", "is", "are", "was", "were", "be", "been", "being",
   "have", "has", "had", "do", "does", "did", "will", "would", "could",
   "should", "may", "might", "shall", "can", "to", "of", "in", "for",
   "on", "with", "at", "by", "from", "as", "into", "through", "during",
   "before", "after", "and", "but", "or", "nor", "not", "so", "yet",
   "both", "either", "neither", "each", "every", "all", "any", "few",
   "more", "most", "other", "some", "such", "no", "only", "own", "same",
   "than", "too", "very", "just", "i", "me", "my", "we", "our", "you",
   "your", "he", "him", "his", "she", "her", "it", "its", "they", "them",
   "their", "what", "which", "who", "whom", "this", "that", "these",
   "those", "am", "if", "then", "else", "when", "up", "out", "about",
   "how", "why", "where", "there", "here", "also", "like", "oh", "im",
   "ok", "yeah", "dont", "thats", "lol", "omg", "u", "ur"]

/-- The tokens of one message that survive `len(w) >= 2 and w not in
stopwords` (line 225). -/
def filteredTokens (text : String) : List String :=
  (wordTokens text).filter (fun w => decide (w.length ≥ 2) && !stopwords.contains w)

/-- The word counter of lines 219-226, keys in first-count order. -/
def wordItems (msgs : List NormMsg) : List (String × Nat) :=
  msgs.foldl
    (fun acc m =>
      if m.Contents = "" then acc
      else (filteredTokens m.Contents).foldl (fun acc w => addCount acc w 1) acc) []

/-- `word_counter.most_common(30)`. -/
def topWordsStat (msgs : List NormMsg) : List (String × Nat) :=
  (sortDescBy Prod.snd (wordItems msgs)).take 30

/-- Membership in the code-point ranges of `emoji_pattern` (lines 230-245). -/
def isEmojiChar (c : Char) : Bool :=
  let n := c.toNat
  (0x1F600 ≤ n && n ≤ 0x1F64F) || (0x1F300 ≤ n && n ≤ 0x1F5FF) ||
  (0x1F680 ≤ n && n ≤ 0x1F6FF) || (0x1F900 ≤ n && n ≤ 0x1F9FF) ||
  (0x1FA00 ≤ n && n ≤ 0x1FA6F) || (0x1FA70 ≤ n && n ≤ 0x1FAFF) ||
  (0x2702 ≤ n && n ≤ 0x27B0) || (0xFE00 ≤ n && n ≤ 0xFE0F) ||
  n == 0x200D || (0x2640 ≤ n && n ≤ 0x2642) || (0x2600 ≤ n && n ≤ 0x26FF)

/-- `emoji_pattern.findall(text)`: maximal runs of emoji-range
characters. -/
def emojiRuns (text : String) : List String :=
  (runsAux isEmojiChar [] text.data).map (⟨·⟩)

/-- The class `\w` restricted to ASCII — `[a-zA-Z0-9_]`.  The inputs
considered here are ASCII, where this agrees with Python's Unicode `\w`;
the second alternative of the custom-emoji pattern spells the ASCII class
out literally. -/
def isWordUnd (c : Char) : Bool := c.isAlphanum || c = '_'

/-- Match `<a?:\w+:\d+>` at the head of `l`. -/
def matchAngle (l : List Char) : Option (List Char × List Char) :=
  match l with
  | '<' :: rest =>
    let ar := match rest with
      | 'a' :: r => (['a'], r)
      | r => (([] : List Char), r)
    match ar.2 with
    | ':' :: r2 =>
      let ws := r2.takeWhile isWordUnd
      if ws = [] then none
      else
        match r2.dropWhile isWordUnd with
        | ':' :: r4 =>
          let ds := r4.takeWhile Char.isDigit
          if ds = [] then none
          else
            match r4.dropWhile Char.isDigit with
            | '>' :: r6 => some ('<' :: ar.1 ++ ':' :: ws ++ ':' :: ds ++ ['>'], r6)
            | _ => none
        | _ => none
    | _ => none
  | _ => none

/-- Match `:[a-zA-Z0-9_]+:` at the head of `l`. -/
def matchColon (l : List Char) : Option (List Char × List Char) :=
  match l with
  | ':' :: rest =>
    let xs := rest.takeWhile isWordUnd
    if xs = [] then none
    else
      match rest.dropWhile isWordUnd with
      | ':' :: r3 => some (':' :: xs ++ [':'], r3)
      | _ => none
  | _ => none

/-- The `re.findall` scan for `discord_emoji_pattern`: at each position
try the first alternative then the second, emit the leftmost match,
continue after it (non-overlapping).  Structural recursion on a character
budget (every step consumes at least one character). -/
def customScan : Nat → List Char → List (List Char)
  | _, [] => []
  | 0, _ => []
  | fuel + 1, c :: rest =>
    match matchAngle (c :: rest) with
    | some m => m.1 :: customScan fuel m.2
    | none =>
      match matchColon (c :: rest) with
      | some m => m.1 :: customScan fuel m.2
      | none => customScan fuel rest

def customMatches (text : String) : List String :=
  (customScan text.data.length text.data).map (⟨·⟩)

/-- The emoji counter of lines 249-257: per message, Unicode-range matches
then custom-pattern matches. -/
def emojiItems (msgs : List NormMsg) : List (String × Nat) :=
  msgs.foldl
    (fun acc m =>
      if m.Contents = "" then acc
      else
        ((customMatches m.Contents).foldl (fun acc e => addCount acc e 1)
          ((emojiRuns m.Contents).foldl (fun acc e => addCount acc e 1) acc))) []

/-- `emoji_counter.most_common(20)`. -/
def topEmojiStat (msgs : List NormMsg) : List (String × Nat) :=
  (sortDescBy Prod.snd (emojiItems msgs)).take 20

/-- `ts[:10]` of every truthy timestamp (the elements added to
`msg_dates`, with multiplicity). -/
def datePrefixes (msgs : List NormMsg) : List String :=
  msgs.filterMap (fun m => if m.Timestamp = "" then none else some (pyTake m.Timestamp 10))

/-- `sorted(msg_dates)`: the distinct date prefixes in ascending order. -/
def msgDates (msgs : List NormMsg) : List String :=
  sortAscBy strLt (datePrefixes msgs).dedup

/-- The loop of lines 271-284 from the second date on.  `prev` is the
previous date string; both `strptime` calls are unguarded, so an
unparsable date aborts the whole computation (`none`). -/
def streakGo : String → List String → Nat → Nat → String → String → Option (Nat × String)
  | _, [], cur, longest, start, best =>
    some (if cur > longest then (cur, start) else (longest, best))
  | prev, d :: ds, cur, longest, start, best =>
    match parseDate prev, parseDate d with
    | some p, some c =>
      if c = p + 1 then streakGo d ds (cur + 1) longest start best
      else if cur > longest then streakGo d ds 1 cur d start
      else streakGo d ds 1 longest d best
    | _, _ => none

/-- Lines 267-284 on the sorted distinct dates: `longest_streak = 0`,
`current_streak = 1`, `streak_start = sorted_dates[0] if sorted_dates else
""`, then the scan and the final comparison.  On an empty date list the
loop is skipped and the final `if 1 > 0` still fires, yielding `(1, "")`. -/
def streakScan : List String → Option (Nat × String)
  | [] => some (1, "")
  | d :: ds => streakGo d ds 1 0 d d

/-- The whole streak section (lines 261-286). -/
def computeStreak (msgs : List NormMsg) : Option (Nat × String) :=
  streakScan (msgDates msgs)

/-- The truthy timestamps, in stream order (line 289). -/
def tsList (msgs : List NormMsg) : List String :=
  msgs.filterMap (fun m => if m.Timestamp = "" then none else some m.Timestamp)

/-- Lines 289-297: `(first_message, last_message, active_days)`. -/
def firstLastActive (msgs : List NormMsg) : String × String × Nat :=
  match tsList msgs with
  | [] => ("", "", 0)
  | t :: rest =>
    (rest.foldl (fun cur x => if strLt x cur then x else cur) t,
     rest.foldl (fun cur x => if strLt cur x then x else cur) t,
     (datePrefixes msgs).dedup.length)

/-- The per-day counter of lines 300-304, keys in first-count order. -/
def dayItems (msgs : List NormMsg) : List (String × Nat) :=
  msgs.foldl
    (fun acc m => if m.Timestamp = "" then acc else addCount acc (pyTake m.Timestamp 10) 1) []

/-- Lines 305-311: `day_counts.most_common(1)[0]` when nonempty. -/
def busiestDayStat (msgs : List NormMsg) : String × Nat :=
  match sortDescBy Prod.snd (dayItems msgs) with
  | [] => ("", 0)
  | p :: _ => p

/-- Lines 314-323: the four fixed windows over the hourly counter. -/
def timeOfDayStat (msgs : List NormMsg) : Nat × Nat × Nat × Nat :=
  (((List.range' 0 6).map (hourCount msgs)).sum,
   ((List.range' 6 6).map (hourCount msgs)).sum,
   ((List.range' 12 6).map (hourCount msgs)).sum,
   ((List.range' 18 6).map (hourCount msgs)).sum)

/-- The statistics record assembled by `compute_stats` (the float
`avg_msg_length` is not modeled). -/
structure Stats where
  total_messages : Nat := 0
  total_channels : Nat := 0
  total_dms : Nat := 0
  total_group_dms : Nat := 0
  total_servers : Nat := 0
  top_dms : List RankEntry := []
  top_group_dms : List RankEntry := []
  top_servers : List RankEntry := []
  top_channels : List ChanEntry := []
  monthly : List (String × Nat) := []
  hourly : List (Nat × Nat) := []
  daily_dow : List (String × Nat) := []
  yearly : List (Nat × Nat) := []
  max_msg_length : Nat := 0
  total_characters : Nat := 0
  total_words : Nat := 0
  attachment_count : Nat := 0
  top_words : List (String × Nat) := []
  top_emoji : List (String × Nat) := []
  longest_streak : Nat := 0
  longest_streak_start : String := ""
  first_message : String := ""
  last_message : String := ""
  active_days : Nat := 0
  busiest_day : String := ""
  busiest_day_count : Nat := 0
  time_of_day : Nat × Nat × Nat × Nat := (0, 0, 0, 0)
deriving DecidableEq, Repr

/-- `compute_stats` (lines 103-325).  Every section is total except the
streak scan, whose uncaught `ValueError` is the only exception the
function can raise; `none` models that exception escaping. -/
def computeStats (data : ParseResult) : Option Stats :=
  (computeStreak data.messages).map (fun ls =>
    { total_messages := data.messages.length
      total_channels := data.channels.length
      total_dms := data.channels.countP (fun c => c.type == "DM")
      total_group_dms := data.channels.countP (fun c => c.type == "GROUP_DM")
      total_servers :=
        (((data.channels.filter (fun c => !isDmType c.type)).map (·.group)).dedup).length
      top_dms := topDms data.channels
      top_group_dms := topGroupDms data.channels
      top_servers := topServers data.channels
      top_channels := topChannels data.channels
      monthly := monthlyStat data.messages
      hourly := hourlyStat data.messages
      daily_dow := dailyDowStat data.messages
      yearly := yearlyStat data.messages
      max_msg_length := (msgLengthStats data.messages).1
      total_characters := (msgLengthStats data.messages).2.1
      total_words := (msgLengthStats data.messages).2.2
      attachment_count := data.messages.countP (·.Attachments)
      top_words := topWordsStat data.messages
      top_emoji := topEmojiStat data.messages
      longest_streak := ls.1
      longest_streak_start := ls.2
      first_message := (firstLastActive data.messages).1
      last_message := (firstLastActive data.messages).2.1
      active_days := (firstLastActive data.messages).2.2
      busiest_day := (busiestDayStat data.messages).1
      busiest_day_count := (busiestDayStat data.messages).2
      time_of_day := timeOfDayStat data.messages })

/-- Value found for key `g` in a counter, with Python's
`dict.get(g, 0)` default. -/
def lkD (acc : List (String × Nat)) (g : String) : Nat :=
  ((acc.find? (fun p => p.1 == g)).map (·.2)).getD 0

/-- The aggregated count of one group over non-DM channels, as the claim
states it. -/
def groupSum (channels : List Channel) (g : String) : Nat :=
  ((channels.filter (fun c => !isDmType c.type && c.group == g)).map (·.message_count)).sum

/-- Concrete archive refuting the tie-break clause of C3 as stated: group
A is first touched by a zero-message channel, so it precedes B in the
counter although B's messages come first in the unified stream. -/
def archC3 : Archive :=
  ⟨ZEntry.absent, ZEntry.absent,
   [⟨"1", ZEntry.val { chType := some "GUILD_TEXT", guildName := "A" }, ZEntry.val []⟩,
    ⟨"2", ZEntry.val { chType := some "GUILD_TEXT", guildName := "B" },
      ZEntry.val [{ Timestamp := "2024-01-01 00:00:00" }]⟩,
    ⟨"3", ZEntry.val { chType := some "GUILD_TEXT", guildName := "A" },
      ZEntry.val [{ Timestamp := "2024-01-02 00:00:00" }]⟩]⟩

/-- The index mapping actually used, with the defaulting of lines 18-23. -/
def ixVal : ZEntry (List (String × String)) → List (String × String)
  | ZEntry.val m => m
  | _ => []

/-- The user record actually used, with the defaulting of lines 26-31. -/
def usVal : ZEntry UserJson → UserJson
  | ZEntry.val u => u
  | _ => {}

/-- `sorted(channel_dirs)` in terms of channel ids. -/
def sortedChannels (l : List RawChannel) : List RawChannel :=
  sortAscBy (fun x y : RawChannel => strLt x.cid y.cid) l

/-- A small archive on which everything completes: one DM channel with one
timestamped message. -/
def archC2 : Archive :=
  ⟨ZEntry.absent, ZEntry.absent,
   [⟨"1", ZEntry.val { chType := some "DM" },
     ZEntry.val [{ Timestamp := "2024-01-01 10:00:00", Contents := "hi" }]⟩]⟩

def rC2 : ParseResult := (parsePackage archC2).toOption.getD ⟨[], [], {}⟩

def sC2 : Stats := (computeStats rC2).getD {}

/-- An archive whose index entry is present but malformed. -/
def archC6bad : Archive :=
  ⟨ZEntry.badJson, ZEntry.absent,
   [⟨"1", ZEntry.val { chType := some "DM" }, ZEntry.val []⟩]⟩

/-- Archive with one skipped channel (malformed metadata), one retained
channel with malformed message list, and one ordinary channel, listed out
of id order. -/
def archC6 : Archive :=
  ⟨ZEntry.absent, ZEntry.absent,
   [⟨"3", ZEntry.val { chType := some "GUILD_TEXT", guildName := "G" }, ZEntry.badJson⟩,
    ⟨"1", ZEntry.badJson, ZEntry.val [{ Timestamp := "2024-01-01 00:00:00" }]⟩,
    ⟨"2", ZEntry.val { chType := some "DM" }, ZEntry.val [{ Contents := "hello" }]⟩]⟩

def rC6 : ParseResult := (parsePackage archC6).toOption.getD ⟨[], [], {}⟩

/-- Archive for C1: one channel, one unparsable and one parsable
timestamp. -/
def archC1 : Archive :=
  ⟨ZEntry.absent, ZEntry.absent,
   [⟨"1", ZEntry.val { chType := some "DM" },
     ZEntry.val [{ Timestamp := "bad-timestamp" },
                 { Timestamp := "2024-01-01 00:00:00" }]⟩]⟩

def exMsgC10 : String := "Hi there! 😀 :custom_emoji:"

/-- One truthy but unparsable timestamp. -/
def msgsC5 : List NormMsg := [{ Timestamp := "hello world timestamp" }]

def msgsC5w : List NormMsg :=
  [{ Timestamp := "2024-01-02 09:00:00" }, { Timestamp := "2024-01-01 10:00:00" }]

/-- The claim's non-greedy match, stated declaratively: `n` is a shortest
nonempty newline-free name such that the remainder after
"Direct Message with " and `n` satisfies the optional `#digits` group and
the end anchor. -/
def dmPatternSplit (s : String) (n : List Char) : Prop :=
  ∃ t, s.data = dmLit ++ (n ++ t) ∧ n ≠ [] ∧ '\n' ∉ n ∧ tailOk t = true ∧
    ∀ n' t', s.data = dmLit ++ (n' ++ t') → n' ≠ [] → '\n' ∉ n' → tailOk t' = true →
      n.length ≤ n'.length

/-- The fallback the claim describes: strip a leading occurrence of the
literal, or leave the hint unchanged when it is not a prefix.  Modelled
from the spec wording, for comparison with the code's `str.replace`. -/
def claimDmFallback (s : String) : String :=
  if dmLit.isPrefixOf s.data then ⟨s.data.drop dmLit.length⟩ else s

def hintC7 : String := "x Direct Message with y"

/-- The streak loop on already-parsed (date string, ordinal) pairs. -/
def streakGoOrd : (String × Nat) → List (String × Nat) → Nat → Nat → String → String → Nat × String
  | _, [], cur, longest, start, best => if cur > longest then (cur, start) else (longest, best)
  | p, e :: es, cur, longest, start, best =>
    if e.2 = p.2 + 1 then streakGoOrd e es (cur + 1) longest start best
    else if cur > longest then streakGoOrd e es 1 cur e.1 start
    else streakGoOrd e es 1 longest e.1 best

/-- Maximal runs of consecutive ordinals (adjacent step exactly +1):
`splitRunsGo x xs` returns the run starting at `x` and the remaining
runs. -/
def splitRunsGo : (String × Nat) → List (String × Nat) → List (String × Nat) × List (List (String × Nat))
  | x, [] => ([x], [])
  | x, y :: ys =>
    let p := splitRunsGo y ys
    if y.2 = x.2 + 1 then (x :: p.1, p.2) else ([x], p.1 :: p.2)

/-- The claim's "runs of consecutive calendar dates", in order. -/
def splitRuns : List (String × Nat) → List (List (String × Nat))
  | [] => []
  | x :: xs => (splitRunsGo x xs).1 :: (splitRunsGo x xs).2

/-- Length and start date of each run. -/
def runsInfo (rs : List (List (String × Nat))) : List (Nat × String) :=
  rs.map (fun r => (r.length, (r.head?.map Prod.fst).getD ""))

/-- Left-to-right selection with strict improvement: the earliest-scanned
run wins ties. -/
def runsEval : Nat × String → List (Nat × String) → Nat × String
  | acc, [] => acc
  | acc, e :: L => runsEval (if e.1 > acc.1 then e else acc) L

/-- The claim's specification of the streak result: the maximal run length
and the start date of the first (earliest-scanned) run attaining it. -/
def specStreak (l : List (String × Nat)) : Nat × String :=
  match (runsInfo (splitRuns l)).find?
      (fun e => e.1 == ((runsInfo (splitRuns l)).map Prod.fst).foldr max 0) with
  | some e => (((runsInfo (splitRuns l)).map Prod.fst).foldr max 0, e.2)
  | none => (0, "")

def msgsC4 : List NormMsg :=
  [{ Timestamp := "2024-01-01 08:00:00" }, { Timestamp := "2024-01-02 08:00:00" },
   { Timestamp := "2024-01-03 08:00:00" }, { Timestamp := "2024-01-05 08:00:00" }]


theorem mem_insertDesc {α : Type} (f : α → Nat) (x a : α) (l : List α) :
    a ∈ insertDesc f x l ↔ a = x ∨ a ∈ l := by
  induction l with
  | nil => simp [insertDesc]
  | cons y ys ih =>
    simp only [insertDesc]
    split
    · simp only [List.mem_cons, ih]
      tauto
    · simp only [List.mem_cons]

theorem filter_insertDesc {α : Type} (f : α → Nat) (x : α) (l : List α) (c : Nat) :
    (insertDesc f x l).filter (fun a => decide (f a = c)) =
      if f x = c then x :: l.filter (fun a => decide (f a = c))
      else l.filter (fun a => decide (f a = c)) := by
  induction l with
  | nil =>
    by_cases hx : f x = c <;> simp [insertDesc, List.filter, hx]
  | cons y ys ih =>
    simp only [insertDesc]
    split
    · rename_i hlt
      by_cases hx : f x = c
      · have hy : ¬ f y = c := by omega
        simp [List.filter_cons, hx, hy, ih]
      · simp [List.filter_cons, hx, ih]
    · by_cases hx : f x = c <;> simp [List.filter_cons, hx]

theorem pairwise_insertDesc {α : Type} (f : α → Nat) (x : α) (l : List α)
    (h : l.Pairwise (fun a b => f b ≤ f a)) :
    (insertDesc f x l).Pairwise (fun a b => f b ≤ f a) := by
  induction l with
  | nil => simp [insertDesc]
  | cons y ys ih =>
    rcases List.pairwise_cons.1 h with ⟨hy, hys⟩
    simp only [insertDesc]
    split
    · rename_i hlt
      refine List.pairwise_cons.2 ⟨?_, ih hys⟩
      intro z hz
      rcases (mem_insertDesc f x z ys).1 hz with rfl | hz
      · omega
      · exact hy z hz
    · rename_i hge
      refine List.pairwise_cons.2 ⟨?_, h⟩
      intro z hz
      rcases List.mem_cons.1 hz with rfl | hz
      · omega
      · exact le_trans (hy z hz) (by omega)

theorem filter_sortDescBy {α : Type} (f : α → Nat) (l : List α) (c : Nat) :
    (sortDescBy f l).filter (fun a => decide (f a = c)) =
      l.filter (fun a => decide (f a = c)) := by
  induction l with
  | nil => simp [sortDescBy]
  | cons x xs ih =>
    simp only [sortDescBy, filter_insertDesc, ih, List.filter_cons]
    split <;> simp_all

theorem mem_sortDescBy {α : Type} (f : α → Nat) (a : α) (l : List α) :
    a ∈ sortDescBy f l ↔ a ∈ l := by
  induction l with
  | nil => simp [sortDescBy]
  | cons x xs ih => simp [sortDescBy, mem_insertDesc, ih]

theorem pairwise_sortDescBy {α : Type} (f : α → Nat) (l : List α) :
    (sortDescBy f l).Pairwise (fun a b => f b ≤ f a) := by
  induction l with
  | nil => simp [sortDescBy]
  | cons x xs ih => exact pairwise_insertDesc f x _ ih

theorem filter_take_prefix {α : Type} (p : α → Bool) (k : Nat) (l : List α) :
    (l.take k).filter p <+: l.filter p :=
  ⟨(l.drop k).filter p, by rw [← List.filter_append, List.take_append_drop]⟩

/-- The four properties shared by every ranking list: members come from the
filtered source list, counts are non-increasing, the cap is respected, and
for every count value the entries with that count form a prefix of the
source entries with that count, in source order (stability under
truncation). -/
theorem ranked_spec {α : Type} (f : α → Nat) (pre : List α) (k : Nat) :
    (∀ e ∈ (sortDescBy f pre).take k, e ∈ pre) ∧
    ((sortDescBy f pre).take k).Pairwise (fun a b => f b ≤ f a) ∧
    ((sortDescBy f pre).take k).length ≤ k ∧
    (∀ c, ((sortDescBy f pre).take k).filter (fun a => decide (f a = c)) <+:
        pre.filter (fun a => decide (f a = c))) := by
  refine ⟨?_, ?_, ?_, ?_⟩
  · intro e he
    exact (mem_sortDescBy f e pre).1 ((List.take_sublist k _).subset he)
  · exact List.Pairwise.sublist (List.take_sublist k _) (pairwise_sortDescBy f pre)
  · exact List.length_take_le k _
  · intro c
    have h := filter_take_prefix (fun a => decide (f a = c)) k (sortDescBy f pre)
    rwa [filter_sortDescBy] at h

theorem lkD_cons_pos (k : String) (v : Nat) (rest : List (String × Nat)) (g : String)
    (h : k = g) : lkD ((k, v) :: rest) g = v := by
  simp [lkD, List.find?_cons_of_pos, h]

theorem lkD_cons_neg (k : String) (v : Nat) (rest : List (String × Nat)) (g : String)
    (h : ¬ k = g) : lkD ((k, v) :: rest) g = lkD rest g := by
  have hb : ((fun p : String × Nat => p.1 == g) (k, v)) = false := by
    simpa using h
  simp [lkD, List.find?_cons_of_neg, hb]

theorem addCount_lkD (acc : List (String × Nat)) (k g : String) (n : Nat) :
    lkD (addCount acc k n) g = lkD acc g + (if k = g then n else 0) := by
  induction acc with
  | nil =>
    by_cases h : k = g
    · simp [addCount, lkD_cons_pos k n [] g h, h, lkD]
    · simp [addCount, lkD_cons_neg k n [] g h, h, lkD]
  | cons p rest ih =>
    obtain ⟨k', v'⟩ := p
    simp only [addCount]
    split
    · rename_i hk
      subst hk
      by_cases h : k' = g
      · rw [lkD_cons_pos k' (v' + n) rest g h, lkD_cons_pos k' v' rest g h, if_pos h]
      · rw [lkD_cons_neg k' (v' + n) rest g h, lkD_cons_neg k' v' rest g h, if_neg h]
        omega
    · rename_i hk
      by_cases h : k' = g
      · have hkg : ¬ k = g := fun hc => hk (h.trans hc.symm)
        rw [lkD_cons_pos k' v' _ g h, lkD_cons_pos k' v' rest g h, if_neg hkg]
        omega
      · rw [lkD_cons_neg k' v' _ g h, lkD_cons_neg k' v' rest g h, ih]

theorem addCount_keys (acc : List (String × Nat)) (k : String) (n : Nat) :
    (addCount acc k n).map Prod.fst =
      if k ∈ acc.map Prod.fst then acc.map Prod.fst else acc.map Prod.fst ++ [k] := by
  induction acc with
  | nil => simp [addCount]
  | cons p rest ih =>
    obtain ⟨k', v'⟩ := p
    simp only [addCount]
    split
    · rename_i hk
      subst hk
      simp
    · rename_i hk
      have hkk : ¬ k = k' := fun hc => hk hc.symm
      simp only [List.map_cons, List.mem_cons, ih]
      by_cases hmem : k ∈ rest.map Prod.fst
      · simp [hmem, hkk]
      · simp [hmem, hkk]

theorem addCount_keys_nodup (acc : List (String × Nat)) (k : String) (n : Nat)
    (h : (acc.map Prod.fst).Nodup) : ((addCount acc k n).map Prod.fst).Nodup := by
  rw [addCount_keys]
  by_cases hmem : k ∈ acc.map Prod.fst
  · rwa [if_pos hmem]
  · rw [if_neg hmem]
    refine List.Nodup.append h (List.nodup_singleton k) ?_
    intro x hx hx'
    rw [List.mem_singleton] at hx'
    subst hx'
    exact hmem hx

theorem lkD_of_mem (acc : List (String × Nat)) (g : String) (v : Nat)
    (hnd : (acc.map Prod.fst).Nodup) (hm : (g, v) ∈ acc) : lkD acc g = v := by
  induction acc with
  | nil => simp at hm
  | cons p rest ih =>
    obtain ⟨k', v'⟩ := p
    rcases List.mem_cons.1 hm with h | h
    · injection h with h1 h2
      subst h1; subst h2
      exact lkD_cons_pos g v rest g rfl
    · have hnd' : (rest.map Prod.fst).Nodup := (List.nodup_cons.1 hnd).2
      have hne : ¬ k' = g := by
        intro hc
        subst hc
        exact (List.nodup_cons.1 hnd).1 (List.mem_map.2 ⟨(k', v), h, rfl⟩)
      rw [lkD_cons_neg k' v' rest g hne]
      exact ih hnd' h

theorem serverFold_lkD_aux (chs : List Channel) :
    ∀ (acc : List (String × Nat)) (g : String),
      lkD (chs.foldl
        (fun acc c => if isDmType c.type then acc else addCount acc c.group c.message_count)
        acc) g = lkD acc g + groupSum chs g := by
  induction chs with
  | nil => intro acc g; simp [groupSum]
  | cons c rest ih =>
    intro acc g
    have hsum : groupSum (c :: rest) g =
        (if (!isDmType c.type && c.group == g) = true then c.message_count else 0)
          + groupSum rest g := by
      simp only [groupSum, List.filter_cons]
      split
      · simp [Nat.add_comm]
      · omega
    simp only [List.foldl_cons]
    by_cases hdm : isDmType c.type
    · rw [if_pos hdm, ih, hsum]
      have hc : (!isDmType c.type && c.group == g) = false := by simp [hdm]
      rw [hc]
      simp
    · rw [if_neg hdm, ih, addCount_lkD, hsum]
      by_cases hg : c.group = g
      · have hc : (!isDmType c.type && c.group == g) = true := by simp [hdm, hg]
        rw [hc, if_pos hg]
        simp
        omega
      · have hc : (!isDmType c.type && c.group == g) = false := by simp [hdm, hg]
        rw [hc, if_neg hg]
        simp

theorem serverFold_keys_nodup_aux (chs : List Channel) :
    ∀ acc : List (String × Nat), (acc.map Prod.fst).Nodup →
      ((chs.foldl
        (fun acc c => if isDmType c.type then acc else addCount acc c.group c.message_count)
        acc).map Prod.fst).Nodup := by
  induction chs with
  | nil => intro acc h; simpa using h
  | cons c rest ih =>
    intro acc h
    simp only [List.foldl_cons]
    split
    · exact ih acc h
    · exact ih _ (addCount_keys_nodup acc c.group c.message_count h)

theorem serverFold_value (chs : List Channel) (g : String) (v : Nat)
    (hm : (g, v) ∈ serverFold chs) : v = groupSum chs g := by
  have hnd : ((serverFold chs).map Prod.fst).Nodup := by
    simpa [serverFold] using serverFold_keys_nodup_aux chs [] (by simp)
  have h1 : lkD (serverFold chs) g = v := lkD_of_mem _ g v hnd hm
  have h2 : lkD (serverFold chs) g = groupSum chs g := by
    have h := serverFold_lkD_aux chs [] g
    simpa [serverFold, lkD, List.find?] using h
  exact h1.symm.trans h2

theorem mem_dmPre_pos (chs : List Channel) (e : RankEntry) (he : e ∈ dmPre chs) :
    0 < e.count := by
  simp only [dmPre, List.mem_map, List.mem_filter, Bool.and_eq_true, decide_eq_true_eq] at he
  obtain ⟨c, ⟨_, _, hc⟩, rfl⟩ := he
  exact hc

theorem mem_gdmPre_pos (chs : List Channel) (e : RankEntry) (he : e ∈ gdmPre chs) :
    0 < e.count := by
  simp only [gdmPre, List.mem_map, List.mem_filter, Bool.and_eq_true, decide_eq_true_eq] at he
  obtain ⟨c, ⟨_, _, hc⟩, rfl⟩ := he
  exact hc

theorem mem_chanPre_pos (chs : List Channel) (e : ChanEntry) (he : e ∈ chanPre chs) :
    0 < e.count := by
  simp only [chanPre, List.mem_map, List.mem_filter] at he
  obtain ⟨c, hc, rfl⟩ := he
  have := hc.2
  simp only [Bool.and_eq_true, decide_eq_true_eq] at this
  exact this.2

theorem mem_serverPre (chs : List Channel) (e : RankEntry) (he : e ∈ serverPre chs) :
    0 < e.count ∧ (e.name, e.count) ∈ serverFold chs := by
  simp only [serverPre, List.mem_map, List.mem_filter] at he
  obtain ⟨p, ⟨hp, hpos⟩, rfl⟩ := he
  exact ⟨by simpa using hpos, hp⟩

/-- C3 (amended): every ranking list holds only entries with positive
count, is sorted by non-increasing count, respects its cap (25/15/20/20),
and is stable: for each count value, its entries with that count are a
prefix of the corresponding filtered source list in first-encounter order
(the channel list for the per-channel rankings; the group first-access
order over non-DM channels for the server ranking).  Server counts are the
sums of the message counts of all channels sharing the group. -/
theorem C3_rankings (chs : List Channel) :
    ((∀ e ∈ topDms chs, 0 < e.count) ∧
      (topDms chs).Pairwise (fun a b => b.count ≤ a.count) ∧
      (topDms chs).length ≤ 25 ∧
      ∀ c, (topDms chs).filter (fun e => decide (e.count = c)) <+:
        (dmPre chs).filter (fun e => decide (e.count = c))) ∧
    ((∀ e ∈ topGroupDms chs, 0 < e.count) ∧
      (topGroupDms chs).Pairwise (fun a b => b.count ≤ a.count) ∧
      (topGroupDms chs).length ≤ 15 ∧
      ∀ c, (topGroupDms chs).filter (fun e => decide (e.count = c)) <+:
        (gdmPre chs).filter (fun e => decide (e.count = c))) ∧
    ((∀ e ∈ topServers chs, 0 < e.count ∧ e.count = groupSum chs e.name) ∧
      (topServers chs).Pairwise (fun a b => b.count ≤ a.count) ∧
      (topServers chs).length ≤ 20 ∧
      ∀ c, (topServers chs).filter (fun e => decide (e.count = c)) <+:
        (serverPre chs).filter (fun e => decide (e.count = c))) ∧
    ((∀ e ∈ topChannels chs, 0 < e.count) ∧
      (topChannels chs).Pairwise (fun a b => b.count ≤ a.count) ∧
      (topChannels chs).length ≤ 20 ∧
      ∀ c, (topChannels chs).filter (fun e => decide (e.count = c)) <+:
        (chanPre chs).filter (fun e => decide (e.count = c))) := by
  obtain ⟨d1, d2, d3, d4⟩ := ranked_spec RankEntry.count (dmPre chs) 25
  obtain ⟨g1, g2, g3, g4⟩ := ranked_spec RankEntry.count (gdmPre chs) 15
  obtain ⟨s1, s2, s3, s4⟩ := ranked_spec RankEntry.count (serverPre chs) 20
  obtain ⟨c1, c2, c3, c4⟩ := ranked_spec ChanEntry.count (chanPre chs) 20
  refine ⟨⟨fun e he => mem_dmPre_pos chs e (d1 e he), d2, d3, d4⟩,
          ⟨fun e he => mem_gdmPre_pos chs e (g1 e he), g2, g3, g4⟩,
          ⟨fun e he => ?_, s2, s3, s4⟩,
          ⟨fun e he => mem_chanPre_pos chs e (c1 e he), c2, c3, c4⟩⟩
  obtain ⟨hpos, hmem⟩ := mem_serverPre chs e (s1 e he)
  exact ⟨hpos, serverFold_value chs e.name e.count hmem⟩

/-- C3 counterexample: on `archC3` the server ranking lists A before B
with equal counts, while in the unified stream group B is encountered
first — so equal-count entries do not follow first-encounter order in the
unified stream. -/
theorem C3_counterexample :
    (parsePackage archC3).map
        (fun r => ((topServers r.channels).map (fun e => (e.name, e.count)),
                   r.messages.map (·.group))) =
      Except.ok ([("A", 1), ("B", 1)], ["B", "A"]) ∧
    ([("A", (1 : Nat)), ("B", 1)] : List (String × Nat)) ≠ [("B", 1), ("A", 1)] := by
  constructor
  · rfl
  · decide

theorem processChannels_count_sum (index : List (String × String)) (l : List RawChannel) :
    ((processChannels index l).1.map (·.message_count)).sum =
      (processChannels index l).2.length := by
  induction l with
  | nil => simp [processChannels]
  | cons rc rest ih =>
    simp only [processChannels]
    cases rc.meta with
    | val meta =>
      cases rc.msgs <;>
        simp only [List.map_cons, List.sum_cons, List.length_append, List.length_map, ih]
    | absent => exact ih
    | badJson => exact ih

theorem parsePackage_ok_eq (ix : ZEntry (List (String × String))) (us : ZEntry UserJson)
    (chl : List RawChannel) (hix : ix ≠ ZEntry.badJson) (hus : us ≠ ZEntry.badJson) :
    parsePackage ⟨ix, us, chl⟩ =
      Except.ok ⟨(processChannels (ixVal ix) (sortedChannels chl)).1,
                 (processChannels (ixVal ix) (sortedChannels chl)).2, usVal us⟩ := by
  cases ix <;> cases us <;> first
    | rfl
    | exact absurd rfl hix
    | exact absurd rfl hus

theorem parsePackage_bad_index (ix : ZEntry (List (String × String))) (us : ZEntry UserJson)
    (chl : List RawChannel) (hix : ix = ZEntry.badJson ∨ us = ZEntry.badJson) :
    parsePackage ⟨ix, us, chl⟩ = Except.error PyErr.jsonDecodeError := by
  rcases hix with rfl | rfl
  · rfl
  · cases ix <;> rfl

/-- C2: whenever `parse_package` succeeds and `compute_stats` completes,
`total_messages` equals the sum of the per-channel `message_count`
fields. -/
theorem C2_total_messages (a : Archive) (r : ParseResult) (s : Stats)
    (hp : parsePackage a = Except.ok r) (hs : computeStats r = some s) :
    s.total_messages = (r.channels.map (·.message_count)).sum := by
  obtain ⟨ls, hls, hmap⟩ := Option.map_eq_some'.1 hs
  have htot : s.total_messages = r.messages.length := by rw [← hmap]
  obtain ⟨ix, us, chl⟩ := a
  have hix : ix ≠ ZEntry.badJson := by
    rintro rfl
    rw [parsePackage_bad_index _ us chl (Or.inl rfl)] at hp
    exact Except.noConfusion hp
  have hus : us ≠ ZEntry.badJson := by
    rintro rfl
    rw [parsePackage_bad_index ix _ chl (Or.inr rfl)] at hp
    exact Except.noConfusion hp
  rw [parsePackage_ok_eq ix us chl hix hus] at hp
  injection hp with hp
  subst hp
  rw [htot]
  exact (processChannels_count_sum _ _).symm

theorem C2_witness :
    parsePackage archC2 = Except.ok rC2 ∧ computeStats rC2 = some sC2 ∧
      sC2.total_messages = (rC2.channels.map (·.message_count)).sum :=
  ⟨by rfl, by rfl, C2_total_messages archC2 rC2 sC2 (by rfl) (by rfl)⟩

theorem listLt_asymm : ∀ (a b : List Char), listLt a b = true → listLt b a = false
  | [], [] => by simp [listLt]
  | [], _ :: _ => by simp [listLt]
  | _ :: _, [] => by simp [listLt]
  | a :: as, b :: bs => by
    intro h
    simp only [listLt] at h ⊢
    by_cases h1 : a.toNat < b.toNat
    · have h2 : ¬ b.toNat < a.toNat := by omega
      simp [h1, h2]
    · by_cases h2 : b.toNat < a.toNat
      · simp [h1, h2] at h
      · simp only [h1, h2, if_false] at h ⊢
        exact listLt_asymm as bs h

theorem listLt_conn : ∀ (a b : List Char), a ≠ b → listLt a b = true ∨ listLt b a = true
  | [], [] => fun h => absurd rfl h
  | [], _ :: _ => fun _ => Or.inl (by simp [listLt])
  | _ :: _, [] => fun _ => Or.inr (by simp [listLt])
  | a :: as, b :: bs => fun h => by
    by_cases h1 : a.toNat < b.toNat
    · exact Or.inl (by simp [listLt, h1])
    · by_cases h2 : b.toNat < a.toNat
      · refine Or.inr ?_
        simp [listLt, h2]
      · have hab : a = b := Char.eq_of_val_eq (UInt32.ext (by omega : a.toNat = b.toNat))
        subst hab
        have hne : as ≠ bs := fun hc => h (by rw [hc])
        rcases listLt_conn as bs hne with hl | hl
        · exact Or.inl (by simp [listLt, h1, hl])
        · exact Or.inr (by simp [listLt, h1, hl])

theorem listLt_le_trans : ∀ (a b c : List Char),
    listLt b a = false → listLt c b = false → listLt c a = false
  | [], _, [] => fun _ _ => rfl
  | [], _, _ :: _ => fun _ _ => rfl
  | _ :: _, [], [] => fun h1 _ => by simp [listLt] at h1
  | _ :: _, _ :: _, [] => fun _ h2 => by simp [listLt] at h2
  | _ :: _, [], _ :: _ => fun h1 _ => by simp [listLt] at h1
  | a :: as, b :: bs, c :: cs => fun h1 h2 => by
    simp only [listLt] at h1 h2 ⊢
    by_cases hba : b.toNat < a.toNat
    · simp [hba] at h1
    · by_cases hcb : c.toNat < b.toNat
      · simp [hcb] at h2
      · by_cases hca : c.toNat < a.toNat
        · omega
        · by_cases hac : a.toNat < c.toNat
          · simp [hca, hac]
          · have hab : ¬ a.toNat < b.toNat := by omega
            have hbc : ¬ b.toNat < c.toNat := by omega
            simp only [hba, hab, if_false] at h1
            simp only [hcb, hbc, if_false] at h2
            simp only [hca, hac, if_false]
            exact listLt_le_trans as bs cs h1 h2

theorem mem_insertAscBy {α : Type} (lt : α → α → Bool) (x a : α) (l : List α) :
    a ∈ insertAscBy lt x l ↔ a = x ∨ a ∈ l := by
  induction l with
  | nil => simp [insertAscBy]
  | cons y ys ih =>
    simp only [insertAscBy]
    split
    · simp only [List.mem_cons, ih]
      tauto
    · simp only [List.mem_cons]

theorem perm_insertAscBy {α : Type} (lt : α → α → Bool) (x : α) (l : List α) :
    (insertAscBy lt x l).Perm (x :: l) := by
  induction l with
  | nil => simp [insertAscBy]
  | cons y ys ih =>
    simp only [insertAscBy]
    split
    · exact (ih.cons y).trans (List.Perm.swap x y ys)
    · exact List.Perm.refl _

theorem perm_sortAscBy {α : Type} (lt : α → α → Bool) (l : List α) :
    (sortAscBy lt l).Perm l := by
  induction l with
  | nil => simp [sortAscBy]
  | cons x xs ih => exact (perm_insertAscBy lt x (sortAscBy lt xs)).trans (ih.cons x)

theorem pairwise_insertAscBy {α : Type} (lt : α → α → Bool)
    (hasymm : ∀ a b, lt a b = true → lt b a = false)
    (htr : ∀ a b c, lt b a = false → lt c b = false → lt c a = false)
    (x : α) (l : List α) (h : l.Pairwise (fun a b => lt b a = false)) :
    (insertAscBy lt x l).Pairwise (fun a b => lt b a = false) := by
  induction l with
  | nil => simp [insertAscBy]
  | cons y ys ih =>
    rcases List.pairwise_cons.1 h with ⟨hy, hys⟩
    simp only [insertAscBy]
    split
    · rename_i hlt
      refine List.pairwise_cons.2 ⟨?_, ih hys⟩
      intro z hz
      rcases (mem_insertAscBy lt x z ys).1 hz with rfl | hz
      · exact hasymm y z hlt
      · exact hy z hz
    · rename_i hge
      refine List.pairwise_cons.2 ⟨?_, h⟩
      intro z hz
      rcases List.mem_cons.1 hz with rfl | hz
      · simpa using hge
      · exact htr x y z (by simpa using hge) (hy z hz)

theorem pairwise_sortAscBy {α : Type} (lt : α → α → Bool)
    (hasymm : ∀ a b, lt a b = true → lt b a = false)
    (htr : ∀ a b c, lt b a = false → lt c b = false → lt c a = false)
    (l : List α) : (sortAscBy lt l).Pairwise (fun a b => lt b a = false) := by
  induction l with
  | nil => simp [sortAscBy]
  | cons x xs ih => exact pairwise_insertAscBy lt hasymm htr x _ ih

/-- Strings are determined by their code-point lists. -/
theorem strEq_of_data (a b : String) (h : a.data = b.data) : a = b :=
  congrArg String.mk h

/-- Sorting a duplicate-free list of strings with `strLt` gives a strictly
ascending list. -/
theorem sortAscBy_strings_strict (l : List String) (hnd : l.Nodup) :
    (sortAscBy strLt l).Pairwise (fun a b => strLt a b = true) := by
  have hperm := perm_sortAscBy strLt l
  have hnd2 : (sortAscBy strLt l).Nodup := hperm.nodup_iff.2 hnd
  have hpw : (sortAscBy strLt l).Pairwise (fun a b => strLt b a = false) :=
    pairwise_sortAscBy strLt
      (fun a b h => listLt_asymm a.data b.data h)
      (fun a b c h1 h2 => listLt_le_trans a.data b.data c.data h1 h2)
      l
  refine (hpw.and hnd2).imp ?_
  rintro a b ⟨hle, hne⟩
  rcases listLt_conn a.data b.data (fun hc => hne (strEq_of_data a b hc)) with hl | hl
  · exact hl
  · exact absurd hl (by simpa [strLt] using hle)

theorem processChannels_ids_sublist (idx : List (String × String)) (l : List RawChannel) :
    ((processChannels idx l).1.map (·.id)).Sublist (l.map (·.cid)) := by
  induction l with
  | nil => simp [processChannels]
  | cons rc rest ih =>
    simp only [processChannels]
    cases rc.meta with
    | val m => exact List.Sublist.cons₂ _ ih
    | absent => exact List.Sublist.cons _ ih
    | badJson => exact List.Sublist.cons _ ih

theorem processChannels_skip (idx : List (String × String)) (l : List RawChannel)
    (hnd : (l.map (·.cid)).Nodup) (rc : RawChannel) (hm : rc ∈ l)
    (hbad : rc.meta = ZEntry.absent ∨ rc.meta = ZEntry.badJson) :
    rc.cid ∉ (processChannels idx l).1.map (·.id) := by
  induction l with
  | nil => cases hm
  | cons hd rest ih =>
    have hpair := List.nodup_cons.1 (show (hd.cid :: rest.map (·.cid)).Nodup from hnd)
    have hnd1 : hd.cid ∉ rest.map (·.cid) := hpair.1
    have hnd2 : (rest.map (·.cid)).Nodup := hpair.2
    rcases List.mem_cons.1 hm with rfl | hm2
    · intro hcon
      rcases hbad with hb | hb <;>
        (simp only [processChannels, hb] at hcon
         exact hnd1 ((processChannels_ids_sublist idx rest).subset hcon))
    · have hrc : rc.cid ∈ rest.map (·.cid) := List.mem_map.2 ⟨rc, hm2, rfl⟩
      have hne : rc.cid ≠ hd.cid := fun hc => hnd1 (hc ▸ hrc)
      intro hcon
      cases hmeta : hd.meta with
      | val m =>
        simp only [processChannels, hmeta, List.map_cons, List.mem_cons] at hcon
        rcases hcon with hc | hc
        · exact hne hc
        · exact ih hnd2 hm2 hc
      | absent =>
        simp only [processChannels, hmeta] at hcon
        exact ih hnd2 hm2 hcon
      | badJson =>
        simp only [processChannels, hmeta] at hcon
        exact ih hnd2 hm2 hcon

theorem processChannels_retain (idx : List (String × String)) (l : List RawChannel)
    (rc : RawChannel) (hm : rc ∈ l) (m : ChanMeta) (hmeta : rc.meta = ZEntry.val m)
    (hmsgs : rc.msgs = ZEntry.absent ∨ rc.msgs = ZEntry.badJson) :
    ∃ c ∈ (processChannels idx l).1, c.id = rc.cid ∧ c.message_count = 0 := by
  induction l with
  | nil => cases hm
  | cons hd rest ih =>
    rcases List.mem_cons.1 hm with rfl | hm2
    · simp only [processChannels, hmeta]
      rcases hmsgs with hb | hb <;>
        (rw [hb]
         exact ⟨_, List.mem_cons_self _ _, rfl, rfl⟩)
    · obtain ⟨c, hc, hcid, hcount⟩ := ih hm2
      cases hmeta2 : hd.meta with
      | val m2 =>
        exact ⟨c, by simp only [processChannels, hmeta2]; exact List.mem_cons_of_mem _ hc,
               hcid, hcount⟩
      | absent => exact ⟨c, by simp only [processChannels, hmeta2]; exact hc, hcid, hcount⟩
      | badJson => exact ⟨c, by simp only [processChannels, hmeta2]; exact hc, hcid, hcount⟩

theorem mem_sortedChannels (l : List RawChannel) (rc : RawChannel) :
    rc ∈ sortedChannels l ↔ rc ∈ l :=
  (perm_sortAscBy _ l).mem_iff

theorem sortedChannels_cids_perm (l : List RawChannel) :
    ((sortedChannels l).map (·.cid)).Perm (l.map (·.cid)) :=
  (perm_sortAscBy _ l).map _

/-- Lifting `sortAscBy_strings_strict` through the `cid` projection. -/
theorem sortedChannels_cids_strict (l : List RawChannel)
    (hnd : (l.map (·.cid)).Nodup) :
    ((sortedChannels l).map (·.cid)).Pairwise (fun a b => strLt a b = true) := by
  have hnd2 : ((sortedChannels l).map (·.cid)).Nodup :=
    (sortedChannels_cids_perm l).nodup_iff.2 hnd
  have hpw2 : (sortedChannels l).Pairwise (fun a b => strLt b.cid a.cid = false) :=
    pairwise_sortAscBy _
      (fun a b h => listLt_asymm a.cid.data b.cid.data h)
      (fun a b c h1 h2 => listLt_le_trans a.cid.data b.cid.data c.cid.data h1 h2)
      l
  have hpw3 : ((sortedChannels l).map (·.cid)).Pairwise (fun a b => strLt b a = false) :=
    List.pairwise_map.2 hpw2
  refine (hpw3.and hnd2).imp ?_
  rintro a b ⟨hle, hne⟩
  rcases listLt_conn a.data b.data (fun hc => hne (strEq_of_data a b hc)) with hl | hl
  · exact hl
  · exact absurd hl (by simpa [strLt] using hle)

/-- ArchiveNotFound arises exactly when the container cannot be opened:
`parse_package` itself never raises it. -/
theorem openPackage_notFound (oa : Option Archive) :
    openPackage oa = Except.error PyErr.archiveNotFound ↔ oa = none := by
  cases oa with
  | none => simp [openPackage]
  | some a =>
    simp only [openPackage]
    constructor
    · intro h
      obtain ⟨ix, us, chl⟩ := a
      by_cases hix : ix = ZEntry.badJson
      · rw [parsePackage_bad_index ix us chl (Or.inl hix)] at h
        simp at h
      · by_cases hus : us = ZEntry.badJson
        · rw [parsePackage_bad_index ix us chl (Or.inr hus)] at h
          simp at h
        · rw [parsePackage_ok_eq ix us chl hix hus] at h
          simp at h
    · intro h
      exact Option.noConfusion h

/-- C6 (amended): when the top-level index and user entries are not
present-but-malformed and channel ids are distinct, `parse_package`
succeeds; a channel whose metadata entry is absent or malformed is skipped
entirely; a channel whose message-list entry is absent or malformed is
retained with `message_count = 0`; the output lists channels in strictly
ascending channel-id order; and `ArchiveNotFound` arises exactly when the
container cannot be opened. -/
theorem C6_parse_package (a : Archive)
    (hix : a.index ≠ ZEntry.badJson) (hus : a.user ≠ ZEntry.badJson)
    (hnd : (a.channels.map (·.cid)).Nodup) :
    (∃ r, parsePackage a = Except.ok r ∧
      (∀ rc ∈ a.channels, (rc.meta = ZEntry.absent ∨ rc.meta = ZEntry.badJson) →
        rc.cid ∉ r.channels.map (·.id)) ∧
      (∀ rc ∈ a.channels, ∀ m, rc.meta = ZEntry.val m →
        (rc.msgs = ZEntry.absent ∨ rc.msgs = ZEntry.badJson) →
        ∃ c ∈ r.channels, c.id = rc.cid ∧ c.message_count = 0) ∧
      (r.channels.map (·.id)).Pairwise (fun x y => strLt x y = true)) ∧
    (∀ oa : Option Archive, openPackage oa = Except.error PyErr.archiveNotFound ↔ oa = none) := by
  obtain ⟨ix, us, chl⟩ := a
  refine ⟨⟨⟨(processChannels (ixVal ix) (sortedChannels chl)).1,
            (processChannels (ixVal ix) (sortedChannels chl)).2, usVal us⟩,
          parsePackage_ok_eq ix us chl hix hus, ?_, ?_, ?_⟩, openPackage_notFound⟩
  · intro rc hm hbad
    have hnds : ((sortedChannels chl).map (·.cid)).Nodup :=
      (sortedChannels_cids_perm chl).nodup_iff.2 hnd
    exact processChannels_skip (ixVal ix) (sortedChannels chl) hnds rc
      ((mem_sortedChannels chl rc).2 hm) hbad
  · intro rc hm m hmeta hmsgs
    exact processChannels_retain (ixVal ix) (sortedChannels chl) rc
      ((mem_sortedChannels chl rc).2 hm) m hmeta hmsgs
  · have hstrict := sortedChannels_cids_strict chl hnd
    exact List.Pairwise.sublist (processChannels_ids_sublist _ _) hstrict

/-- C6 counterexample: the container opens, the only failure is a
present-but-malformed optional top-level entry, and `parse_package` still
fails (with the JSON decode error), contradicting "fails only when the
container itself cannot be opened". -/
theorem C6_counterexample :
    parsePackage archC6bad = Except.error PyErr.jsonDecodeError ∧
    openPackage (some archC6bad) ≠ Except.error PyErr.archiveNotFound := by
  constructor
  · rfl
  · intro h
    exact PyErr.noConfusion (Except.error.inj h)

theorem C6_witness :
    parsePackage archC6 = Except.ok rC6 ∧
    rC6.channels.map (·.id) = ["2", "3"] ∧
    ("1" ∉ rC6.channels.map (·.id)) ∧
    (∃ c ∈ rC6.channels, c.id = "3" ∧ c.message_count = 0) ∧
    (rC6.channels.map (·.id)).Pairwise (fun x y => strLt x y = true) := by
  obtain ⟨⟨r, hr, hskip, hret, hasc⟩, -⟩ :=
    C6_parse_package archC6 (by decide) (by decide) (by decide)
  have hr2 : parsePackage archC6 = Except.ok rC6 := by rfl
  rw [hr2] at hr
  injection hr with hr
  subst hr
  refine ⟨hr2, by rfl, ?_, ?_, hasc⟩
  · exact hskip ⟨"1", ZEntry.badJson, ZEntry.val [{ Timestamp := "2024-01-01 00:00:00" }]⟩
      (by simp [archC6]) (Or.inr rfl)
  · exact hret ⟨"3", ZEntry.val { chType := some "GUILD_TEXT", guildName := "G" }, ZEntry.badJson⟩
      (by simp [archC6]) _ rfl (Or.inr rfl)

/-- C1: the code, not the claim, is at fault.  On `archC1` both messages
are counted in `total_messages` (2) and in the per-channel counts ([2]),
and the timestamp "bad-timestamp" is unparsable — yet `compute_stats` does
not run to completion: the streak section feeds the raw date prefix
"bad-timest" to an unguarded `strptime`, which raises `ValueError`
(modeled by `computeStats` returning `none`). -/
theorem C1_streak_crash :
    (parsePackage archC1).map computeStats = Except.ok none ∧
    (parsePackage archC1).map (fun r => r.messages.length) = Except.ok 2 ∧
    (parsePackage archC1).map (fun r => r.channels.map (·.message_count)) = Except.ok [2] ∧
    parseTS (pyTake "bad-timestamp" 19) = none ∧
    parseDate (pyTake "bad-timestamp" 10) = none :=
  ⟨rfl, rfl, rfl, rfl, rfl⟩

theorem length_filterMap_countP {α β : Type} (f : α → Option β) (l : List α) :
    (l.filterMap f).length = l.countP (fun a => (f a).isSome) := by
  induction l with
  | nil => rfl
  | cons a l ih =>
    rw [List.filterMap_cons, List.countP_cons]
    cases hf : f a <;> simp [hf, ih]

theorem sum_map_add {α : Type} (l : List α) (f g : α → Nat) :
    (l.map (fun a => f a + g a)).sum = (l.map f).sum + (l.map g).sum := by
  induction l with
  | nil => rfl
  | cons a l ih =>
    simp only [List.map_cons, List.sum_cons, ih]
    omega

theorem sum_indicator (n m : Nat) :
    ((List.range n).map (fun k => if m = k then 1 else 0)).sum = if m < n then 1 else 0 := by
  induction n with
  | zero => simp
  | succ n ih =>
    rw [List.range_succ, List.map_append, List.sum_append, ih]
    by_cases h1 : m < n
    · have h2 : m ≠ n := by omega
      have h3 : m < n + 1 := by omega
      simp [h1, h2, h3]
    · by_cases h2 : m = n
      · simp [h1, h2]
      · have h3 : ¬ m < n + 1 := by omega
        simp [h1, h2, h3]

theorem sum_bucket_counts (n : Nat) (L : List TS) (f : TS → Nat)
    (hf : ∀ t ∈ L, f t < n) :
    ((List.range n).map (fun k => L.countP (fun t => f t == k))).sum = L.length := by
  induction L with
  | nil => simp
  | cons t L ih =>
    have ht : f t < n := hf t (List.mem_cons_self t L)
    have hL : ∀ u ∈ L, f u < n := fun u hu => hf u (List.mem_cons_of_mem t hu)
    simp only [List.countP_cons, beq_iff_eq]
    rw [sum_map_add]
    have hind : ((List.range n).map (fun k => if f t = k then 1 else 0)).sum = 1 := by
      rw [sum_indicator]
      simp [ht]
    have hih : ((List.range n).map (fun k => L.countP (fun u => f u == k))).sum = L.length :=
      ih hL
    simp only [beq_iff_eq] at hih
    rw [hih, hind, List.length_cons]

theorem digit_bounds (c : Char) (h : c.isDigit = true) : 48 ≤ c.toNat ∧ c.toNat ≤ 57 := by
  simp [Char.isDigit] at h
  exact ⟨h.1, h.2⟩

theorem digitVal_le_9 (c : Char) (h : c.isDigit = true) : digitVal c ≤ 9 := by
  obtain ⟨h1, h2⟩ := digit_bounds c h
  unfold digitVal
  omega

theorem readHour_le (l : List Char) (h : Nat) (r : List Char)
    (hl : readHour l = some (h, r)) : h ≤ 23 := by
  have hz : digitVal '0' = 0 := rfl
  have ho : digitVal '1' = 1 := rfl
  unfold readHour at hl
  split at hl
  · split_ifs at hl with hc
    · injection hl with hl
      injection hl with hl1 hl2
      have hcn : Char.toNat _ ≤ 51 := hc.2
      subst hl1
      unfold digitVal
      omega
    · injection hl with hl
      injection hl with hl1 hl2
      omega
  · split_ifs at hl with hc1 hc2
    · injection hl with hl
      injection hl with hl1 hl2
      obtain ⟨hA, hB⟩ := hc1
      have h9 := digitVal_le_9 _ hB
      subst hl1
      rcases hA with hA | hA <;> rw [hA] <;> omega
    · injection hl with hl
      injection hl with hl1 hl2
      have h9 := digitVal_le_9 _ hc2
      omega
  · split_ifs at hl with hc
    injection hl with hl
    injection hl with hl1 hl2
    have h9 := digitVal_le_9 _ hc
    omega
  · exact Option.noConfusion hl

theorem parseTS_hour_le (s : String) (t : TS) (hp : parseTS s = some t) : t.hour ≤ 23 := by
  unfold parseTS at hp
  split at hp
  · exact Option.noConfusion hp
  split at hp
  · exact Option.noConfusion hp
  split at hp
  · exact Option.noConfusion hp
  rename_i hh rest3 heq3
  split at hp
  · exact Option.noConfusion hp
  split at hp
  · exact Option.noConfusion hp
  split at hp
  · exact Option.noConfusion hp
  split at hp
  · exact Option.noConfusion hp
  split_ifs at hp with hcond
  injection hp with hp
  subst hp
  exact readHour_le _ _ _ heq3

theorem mem_parsedTimes_hour (msgs : List NormMsg) (t : TS) (ht : t ∈ parsedTimes msgs) :
    t.hour < 24 := by
  simp only [parsedTimes, List.mem_filterMap] at ht
  obtain ⟨m, hm, hpt⟩ := ht
  by_cases hts : m.Timestamp = ""
  · rw [if_pos hts] at hpt
    exact Option.noConfusion hpt
  · rw [if_neg hts] at hpt
    have := parseTS_hour_le _ _ hpt
    omega

theorem TS_weekday_lt (t : TS) : t.weekday < 7 :=
  Nat.mod_lt _ (by omega)

/-- C9: the hourly bucket list always has exactly 24 entries labelled 0-23
in order, the weekday list exactly 7 labelled Mon-Sun in order, and each
list's counts sum to the number of messages whose (truthy) timestamp
parsed successfully. -/
theorem C9_buckets (msgs : List NormMsg) :
    (hourlyStat msgs).length = 24 ∧
    (hourlyStat msgs).map Prod.fst = List.range 24 ∧
    ((hourlyStat msgs).map Prod.snd).sum = (parsedTimes msgs).length ∧
    (dailyDowStat msgs).length = 7 ∧
    (dailyDowStat msgs).map Prod.fst = dowNames ∧
    ((dailyDowStat msgs).map Prod.snd).sum = (parsedTimes msgs).length ∧
    (parsedTimes msgs).length =
      msgs.countP (fun m =>
        (if m.Timestamp = "" then none else parseTS (pyTake m.Timestamp 19)).isSome) := by
  refine ⟨?_, ?_, ?_, ?_, ?_, ?_, ?_⟩
  · simp [hourlyStat]
  · rfl
  · simp only [hourlyStat, hourCount, List.map_map]
    have hs := sum_bucket_counts 24 (parsedTimes msgs) TS.hour
      (fun t ht => mem_parsedTimes_hour msgs t ht)
    simpa [Function.comp] using hs
  · simp [dailyDowStat]
  · rfl
  · simp only [dailyDowStat, List.map_map]
    have hs := sum_bucket_counts 7 (parsedTimes msgs) TS.weekday
      (fun t _ => TS_weekday_lt t)
    simpa [Function.comp] using hs
  · exact length_filterMap_countP _ _

/-- C10 (amended): the example message contributes exactly one match to
each emoji scan, and exactly the tokens "hi", "there", "custom", "emoji"
to word counting before stop-word filtering (the custom-emoji text also
yields word tokens); filtering keeps exactly the tokens of length at least
2 outside the fixed stop-word list. -/
theorem C10_example_message :
    emojiRuns exMsgC10 = ["😀"] ∧
    customMatches exMsgC10 = [":custom_emoji:"] ∧
    wordTokens exMsgC10 = ["hi", "there", "custom", "emoji"] ∧
    filteredTokens exMsgC10 = ["hi", "custom", "emoji"] ∧
    "there" ∈ stopwords ∧ "hi" ∉ stopwords ∧ "custom" ∉ stopwords ∧ "emoji" ∉ stopwords :=
  ⟨rfl, rfl, rfl, rfl, by decide, by decide, by decide, by decide⟩

/-- C10 counterexample: word extraction on the example message does not
produce exactly the tokens "hi" and "there" — `:custom_emoji:` also yields
"custom" and "emoji". -/
theorem C10_counterexample : wordTokens exMsgC10 ≠ ["hi", "there"] := by decide

theorem listLt_irrefl : ∀ l : List Char, listLt l l = false
  | [] => rfl
  | c :: cs => by simp [listLt, listLt_irrefl cs]

theorem foldMin_le (ys : List String) : ∀ (t x : String), (x = t ∨ x ∈ ys) →
    strLt x (ys.foldl (fun cur v => if strLt v cur then v else cur) t) = false := by
  induction ys with
  | nil =>
    rintro t x (rfl | h)
    · exact listLt_irrefl x.data
    · cases h
  | cons y ys ih =>
    rintro t x hx
    simp only [List.foldl_cons]
    by_cases hyt : strLt y t = true
    · simp only [hyt, if_true]
      rcases hx with rfl | hx
      · exact listLt_le_trans _ _ _ (ih y y (Or.inl rfl)) (listLt_asymm y.data x.data hyt)
      · rcases List.mem_cons.1 hx with rfl | hx
        · exact ih _ x (Or.inl rfl)
        · exact ih y x (Or.inr hx)
    · simp only [hyt, if_false]
      rcases hx with rfl | hx
      · exact ih _ x (Or.inl rfl)
      · rcases List.mem_cons.1 hx with rfl | hx
        · exact listLt_le_trans _ _ _ (ih t t (Or.inl rfl)) (by simpa using hyt)
        · exact ih t x (Or.inr hx)

theorem foldMin_mem (ys : List String) : ∀ t : String,
    ys.foldl (fun cur v => if strLt v cur then v else cur) t = t ∨
    ys.foldl (fun cur v => if strLt v cur then v else cur) t ∈ ys := by
  induction ys with
  | nil => exact fun t => Or.inl rfl
  | cons y ys ih =>
    intro t
    simp only [List.foldl_cons]
    by_cases hyt : strLt y t = true
    · simp only [hyt, if_true]
      rcases ih y with h | h
      · exact Or.inr (List.mem_cons.2 (Or.inl h))
      · exact Or.inr (List.mem_cons_of_mem y h)
    · simp only [hyt, if_false]
      rcases ih t with h | h
      · exact Or.inl h
      · exact Or.inr (List.mem_cons_of_mem y h)

theorem foldMax_le (ys : List String) : ∀ (t x : String), (x = t ∨ x ∈ ys) →
    strLt (ys.foldl (fun cur v => if strLt cur v then v else cur) t) x = false := by
  induction ys with
  | nil =>
    rintro t x (rfl | h)
    · exact listLt_irrefl x.data
    · cases h
  | cons y ys ih =>
    rintro t x hx
    simp only [List.foldl_cons]
    by_cases hty : strLt t y = true
    · simp only [hty, if_true]
      rcases hx with rfl | hx
      · exact listLt_le_trans _ _ _ (listLt_asymm x.data y.data hty) (ih y y (Or.inl rfl))
      · rcases List.mem_cons.1 hx with rfl | hx
        · exact ih _ x (Or.inl rfl)
        · exact ih y x (Or.inr hx)
    · simp only [hty, if_false]
      rcases hx with rfl | hx
      · exact ih _ x (Or.inl rfl)
      · rcases List.mem_cons.1 hx with rfl | hx
        · exact listLt_le_trans _ _ _ (by simpa using hty) (ih t t (Or.inl rfl))
        · exact ih t x (Or.inr hx)

theorem foldMax_mem (ys : List String) : ∀ t : String,
    ys.foldl (fun cur v => if strLt cur v then v else cur) t = t ∨
    ys.foldl (fun cur v => if strLt cur v then v else cur) t ∈ ys := by
  induction ys with
  | nil => exact fun t => Or.inl rfl
  | cons y ys ih =>
    intro t
    simp only [List.foldl_cons]
    by_cases hty : strLt t y = true
    · simp only [hty, if_true]
      rcases ih y with h | h
      · exact Or.inr (List.mem_cons.2 (Or.inl h))
      · exact Or.inr (List.mem_cons_of_mem y h)
    · simp only [hty, if_false]
      rcases ih t with h | h
      · exact Or.inl h
      · exact Or.inr (List.mem_cons_of_mem y h)

/-- C5 (amended): whenever at least one truthy (non-empty) timestamp
exists, `first_message` is the lexicographic minimum and `last_message`
the lexicographic maximum of the truthy timestamp strings (hence
`first_message` is not above `last_message`), and `active_days` counts the
distinct date prefixes; with no truthy timestamp all three default. -/
theorem C5_first_last (msgs : List NormMsg) :
    (tsList msgs ≠ [] →
      ((firstLastActive msgs).1 ∈ tsList msgs ∧
       (∀ x ∈ tsList msgs, strLt x (firstLastActive msgs).1 = false) ∧
       (firstLastActive msgs).2.1 ∈ tsList msgs ∧
       (∀ x ∈ tsList msgs, strLt (firstLastActive msgs).2.1 x = false) ∧
       strLt (firstLastActive msgs).2.1 (firstLastActive msgs).1 = false ∧
       (firstLastActive msgs).2.2 = (datePrefixes msgs).dedup.length)) ∧
    (tsList msgs = [] → firstLastActive msgs = ("", "", 0)) := by
  constructor
  · intro hne
    cases hts : tsList msgs with
    | nil => exact absurd hts hne
    | cons t rest =>
      simp only [firstLastActive, hts]
      have hmin_mem : rest.foldl (fun cur v => if strLt v cur then v else cur) t ∈ t :: rest := by
        rcases foldMin_mem rest t with h | h
        · exact List.mem_cons.2 (Or.inl h)
        · exact List.mem_cons_of_mem t h
      have hmax_mem : rest.foldl (fun cur v => if strLt cur v then v else cur) t ∈ t :: rest := by
        rcases foldMax_mem rest t with h | h
        · exact List.mem_cons.2 (Or.inl h)
        · exact List.mem_cons_of_mem t h
      refine ⟨hmin_mem, ?_, hmax_mem, ?_, ?_, trivial⟩
      · intro x hx
        rcases List.mem_cons.1 hx with rfl | hx
        · exact foldMin_le rest x x (Or.inl rfl)
        · exact foldMin_le rest t x (Or.inr hx)
      · intro x hx
        rcases List.mem_cons.1 hx with rfl | hx
        · exact foldMax_le rest x x (Or.inl rfl)
        · exact foldMax_le rest t x (Or.inr hx)
      · exact foldMax_le rest t _ (List.mem_cons.1 hmin_mem)
  · intro hts
    simp only [firstLastActive, hts]

/-- C5 counterexample: no parsable timestamp exists, yet `first_message`
and `last_message` are the raw unparsable string (not `""`) and
`active_days` is 1 (not 0): lines 289-297 test truthiness, not
parsability. -/
theorem C5_counterexample :
    parseTS (pyTake "hello world timestamp" 19) = none ∧
    (firstLastActive msgsC5).1 = "hello world timestamp" ∧
    (firstLastActive msgsC5).1 ≠ "" ∧
    (firstLastActive msgsC5).2.2 = 1 :=
  ⟨rfl, rfl, by decide, rfl⟩

theorem C5_witness :
    tsList msgsC5w ≠ [] ∧
    (firstLastActive msgsC5w).1 ∈ tsList msgsC5w ∧
    strLt (firstLastActive msgsC5w).2.1 (firstLastActive msgsC5w).1 = false := by
  have h := (C5_first_last msgsC5w).1 (by decide)
  exact ⟨by decide, h.1, h.2.2.2.2.1⟩

theorem splitInFirst_some (l : List Char) : ∀ x r : List Char,
    splitInFirst l = some (x, r) →
    l = x ++ sepIn ++ r ∧ ∀ x' r', l = x' ++ sepIn ++ r' → x.length ≤ x'.length := by
  induction l with
  | nil => intro x r h; exact Option.noConfusion h
  | cons c rest ih =>
    intro x r h
    simp only [splitInFirst] at h
    split_ifs at h with hpre
    · injection h with h
      injection h with hx hr
      subst hx
      subst hr
      have hp : sepIn <+: c :: rest := List.isPrefixOf_iff_prefix.1 hpre
      obtain ⟨t, ht⟩ := hp
      constructor
      · rw [← ht, List.nil_append, List.drop_left]
      · intro x' r' _
        simp
    · cases hsp : splitInFirst rest with
      | none => rw [hsp] at h; exact Option.noConfusion h
      | some p =>
        obtain ⟨x1, r1⟩ := p
        rw [hsp] at h
        injection h with h
        injection h with hx hr
        subst hx
        subst hr
        obtain ⟨heq, hmin⟩ := ih x1 r1 hsp
        constructor
        · rw [List.cons_append, List.cons_append, ← heq]
        · intro x' r' heq'
          cases x' with
          | nil =>
            exfalso
            apply hpre
            rw [List.nil_append] at heq'
            exact List.isPrefixOf_iff_prefix.2 ⟨r', heq'.symm⟩
          | cons c' xs' =>
            rw [List.cons_append, List.cons_append] at heq'
            injection heq' with hc hrest
            have := hmin xs' r' hrest
            simp only [List.length_cons]
            omega

theorem splitInFirst_none (l : List Char) (h : splitInFirst l = none) :
    ∀ x r : List Char, l ≠ x ++ sepIn ++ r := by
  induction l with
  | nil =>
    intro x r heq
    have hlen := congrArg List.length heq
    simp [sepIn] at hlen
    omega
  | cons c rest ih =>
    simp only [splitInFirst] at h
    split_ifs at h with hpre
    have hrest : splitInFirst rest = none := Option.map_eq_none'.1 h
    intro x r heq
    cases x with
    | nil =>
      apply hpre
      rw [List.nil_append] at heq
      exact List.isPrefixOf_iff_prefix.2 ⟨r, heq.symm⟩
    | cons c' xs =>
      rw [List.cons_append, List.cons_append] at heq
      injection heq with hc hrest2
      exact ih hrest xs r hrest2

/-- C8: for channels that are neither DM nor GROUP_DM, when the hint
contains `" in "` the resolver splits at the first occurrence — display is
`"#" + left`, group is the right part; otherwise display falls back to the
raw channel name (or the id) and group to the guild name (or "Unknown
Server"). -/
theorem C8_guild_resolution (chType chName guildName cid idxVal : String)
    (h1 : chType ≠ "DM") (h2 : chType ≠ "GROUP_DM") :
    (∀ l r, splitInFirst idxVal.data = some (l, r) →
      (idxVal.data = l ++ sepIn ++ r ∧
       (∀ l' r', idxVal.data = l' ++ sepIn ++ r' → l.length ≤ l'.length) ∧
       resolveChannel chType chName guildName cid idxVal =
         ("#" ++ (⟨l⟩ : String), (⟨r⟩ : String)))) ∧
    (splitInFirst idxVal.data = none →
      ((∀ l r, idxVal.data ≠ l ++ sepIn ++ r) ∧
       resolveChannel chType chName guildName cid idxVal =
         (if chName ≠ "" then "#" ++ chName else "#" ++ cid,
          if guildName ≠ "" then guildName else "Unknown Server"))) := by
  constructor
  · intro l r hsp
    obtain ⟨heq, hmin⟩ := splitInFirst_some idxVal.data l r hsp
    refine ⟨heq, hmin, ?_⟩
    simp [resolveChannel, h1, h2, hsp]
  · intro hsp
    exact ⟨splitInFirst_none idxVal.data hsp, by simp [resolveChannel, h1, h2, hsp]⟩

theorem C8_witness :
    resolveChannel "GUILD_TEXT" "" "" "42" "general in My Server" = ("#general", "My Server") := by
  have h := (C8_guild_resolution "GUILD_TEXT" "" "" "42" "general in My Server"
    (by decide) (by decide)).1 ("general").data ("My Server").data (by rfl)
  exact h.2.2.trans (by rfl)

theorem dmScan_some (l : List Char) : ∀ n, dmScan l = some n →
    ∃ t, l = n ++ t ∧ n ≠ [] ∧ '\n' ∉ n ∧ tailOk t = true ∧
      ∀ n' t', l = n' ++ t' → n' ≠ [] → '\n' ∉ n' → tailOk t' = true →
        n.length ≤ n'.length := by
  induction l with
  | nil => intro n h; exact Option.noConfusion h
  | cons c rest ih =>
    intro n h
    simp only [dmScan] at h
    split_ifs at h with hc hrest
    · injection h with h
      subst h
      refine ⟨rest, rfl, by simp, by simp only [List.mem_singleton]; exact fun hcc => hc hcc.symm, hrest, ?_⟩
      intro n' t' _ hne _ _
      cases n' with
      | nil => exact absurd rfl hne
      | cons c' xs => simp
    · cases hs : dmScan rest with
      | none => rw [hs] at h; exact Option.noConfusion h
      | some m =>
        rw [hs] at h
        injection h with h
        subst h
        obtain ⟨t, heq, hne, hnl, htail, hmin⟩ := ih m hs
        refine ⟨t, by rw [List.cons_append, ← heq], by simp, ?_, htail, ?_⟩
        · simp only [List.mem_cons, not_or]
          exact ⟨fun hcc => hc hcc.symm, hnl⟩
        · intro n' t' heq' hne' hnl' htail'
          cases n' with
          | nil => exact absurd rfl hne'
          | cons c' xs =>
            rw [List.cons_append] at heq'
            injection heq' with hcc hrest'
            cases xs with
            | nil =>
              rw [List.nil_append] at hrest'
              rw [← hrest'] at htail'
              exact absurd htail' hrest
            | cons c2 xs2 =>
              have hxs : ('\n' : Char) ∉ c2 :: xs2 := by
                intro hmem
                exact hnl' (List.mem_cons_of_mem c' hmem)
              have := hmin (c2 :: xs2) t' hrest' (by simp) hxs htail'
              simp only [List.length_cons] at this ⊢
              omega

theorem dmScan_none (l : List Char) (h : dmScan l = none) :
    ∀ n t, l = n ++ t → n ≠ [] → '\n' ∉ n → tailOk t = false := by
  induction l with
  | nil =>
    intro n t heq hne _
    cases n with
    | nil => exact absurd rfl hne
    | cons c xs => exact absurd (congrArg List.length heq) (by simp)
  | cons c rest ih =>
    intro n t heq hne hnl
    simp only [dmScan] at h
    split_ifs at h with hc hrest
    · cases n with
      | nil => exact absurd rfl hne
      | cons c' xs =>
        rw [List.cons_append] at heq
        injection heq with hcc _
        exfalso
        exact hnl (by rw [← hcc, hc]; exact List.mem_cons_self _ _)
    · have hs : dmScan rest = none := Option.map_eq_none'.1 h
      cases n with
      | nil => exact absurd rfl hne
      | cons c' xs =>
        rw [List.cons_append] at heq
        injection heq with hcc hrest'
        cases xs with
        | nil =>
          rw [List.nil_append] at hrest'
          rw [← hrest']
          by_cases hx : tailOk rest = true
          · exact absurd hx hrest
          · simpa using hx
        | cons c2 xs2 =>
          have hxs : ('\n' : Char) ∉ c2 :: xs2 := by
            intro hmem
            exact hnl (List.mem_cons_of_mem c' hmem)
          exact ih hs (c2 :: xs2) t hrest' (by simp) hxs

/-- C7 (amended): when the DM pattern matches, the resolver returns the
non-greedily captured name and group "Direct Messages"; when it does not
match, no valid decomposition exists and the resolver falls back to the
hint with every occurrence of the literal "Direct Message with " removed
(Python `str.replace`), not just a leading one. -/
theorem C7_dm_resolution (s : String) :
    (∀ n, dmMatch s = some (⟨n⟩ : String) →
      dmPatternSplit s n ∧ resolveDM s = ((⟨n⟩ : String), "Direct Messages")) ∧
    (dmMatch s = none →
      (¬ ∃ n, dmPatternSplit s n) ∧
      resolveDM s = ((⟨removeAll dmLit s.data⟩ : String), "Direct Messages")) := by
  constructor
  · intro n hm
    have hm0 := hm
    simp only [dmMatch] at hm0
    split_ifs at hm0 with hpre
    · cases hs : dmScan (s.data.drop dmLit.length) with
      | none => rw [hs] at hm0; exact Option.noConfusion hm0
      | some m =>
        rw [hs] at hm0
        injection hm0 with hm0
        have hmn : m = n := congrArg String.data hm0
        subst hmn
        obtain ⟨t, heq, hne, hnl, htail, hmin⟩ := dmScan_some _ m hs
        obtain ⟨rest0, hrest0⟩ := List.isPrefixOf_iff_prefix.1 hpre
        have hdata : s.data = dmLit ++ (m ++ t) := by
          rw [← hrest0]
          congr 1
          rw [← heq, ← hrest0, List.drop_left]
        constructor
        · refine ⟨t, hdata, hne, hnl, htail, ?_⟩
          intro n' t' heq' hne' hnl' htail'
          apply hmin n' t' _ hne' hnl' htail'
          have : dmLit ++ (n' ++ t') = dmLit ++ (s.data.drop dmLit.length) := by
            rw [← heq']
            rw [← hrest0, List.drop_left]
          exact (List.append_cancel_left this).symm
        · simp only [resolveDM, hm]
  · intro hm
    constructor
    · rintro ⟨n, t, heq, hne, hnl, htail, -⟩
      simp only [dmMatch] at hm
      split_ifs at hm with hpre
      · have hs : dmScan (s.data.drop dmLit.length) = none := Option.map_eq_none'.1 hm
        have hdrop : s.data.drop dmLit.length = n ++ t := by
          rw [heq, List.drop_left]
        have := dmScan_none _ hs n t hdrop hne hnl
        rw [htail] at this
        exact Bool.noConfusion this
      · exact hpre (List.isPrefixOf_iff_prefix.2 ⟨n ++ t, heq.symm⟩)
    · simp only [resolveDM, hm]

/-- C7 counterexample: on a hint where the pattern does not match and the
literal occurs mid-string, the code removes the inner occurrence
("x y"), while the claim's prefix-stripping fallback would leave the hint
unchanged. -/
theorem C7_counterexample :
    dmMatch hintC7 = none ∧
    resolveDM hintC7 = ("x y", "Direct Messages") ∧
    claimDmFallback hintC7 = hintC7 ∧
    resolveDM hintC7 ≠ (claimDmFallback hintC7, "Direct Messages") :=
  ⟨rfl, rfl, rfl, by decide⟩

theorem C7_witness :
    dmPatternSplit "Direct Message with Alex#0001" ("Alex").data ∧
    resolveDM "Direct Message with Alex#0001" = ("Alex", "Direct Messages") := by
  have h := (C7_dm_resolution "Direct Message with Alex#0001").1 ("Alex").data (by rfl)
  exact ⟨h.1, h.2⟩

theorem streakGo_bridge : ∀ (ds : List String) (d : String) (cur longest : Nat)
    (start best : String),
    (parseDate d).isSome → (∀ e ∈ ds, (parseDate e).isSome) →
    streakGo d ds cur longest start best =
      some (streakGoOrd (d, (parseDate d).getD 0)
        (ds.map (fun e => (e, (parseDate e).getD 0))) cur longest start best) := by
  intro ds
  induction ds with
  | nil =>
    intro d cur longest start best _ _
    rfl
  | cons e es ih =>
    intro d cur longest start best hd hes
    obtain ⟨p, hp⟩ := Option.isSome_iff_exists.1 hd
    obtain ⟨c, hc⟩ := Option.isSome_iff_exists.1 (hes e (List.mem_cons_self e es))
    have hes' : ∀ x ∈ es, (parseDate x).isSome :=
      fun x hx => hes x (List.mem_cons_of_mem e hx)
    simp only [streakGo, hp, hc, List.map_cons, streakGoOrd, Option.getD_some]
    by_cases hstep : c = p + 1
    · simp only [if_pos hstep]
      have hih := ih e (cur + 1) longest start best (by simp [hc]) hes'
      rw [hc, Option.getD_some] at hih
      exact hih
    · simp only [if_neg hstep]
      by_cases hcl : cur > longest
      · simp only [if_pos hcl]
        have hih := ih e 1 cur e start (by simp [hc]) hes'
        rw [hc, Option.getD_some] at hih
        exact hih
      · simp only [if_neg hcl]
        have hih := ih e 1 longest e best (by simp [hc]) hes'
        rw [hc, Option.getD_some] at hih
        exact hih

theorem splitRunsGo_fst : ∀ (x : String × Nat) (xs : List (String × Nat)),
    ∃ r, (splitRunsGo x xs).1 = x :: r := by
  intro x xs
  cases xs with
  | nil => exact ⟨[], rfl⟩
  | cons y ys =>
    simp only [splitRunsGo]
    split
    · exact ⟨(splitRunsGo y ys).1, rfl⟩
    · exact ⟨[], rfl⟩

theorem streakGoOrd_runs : ∀ (rest : List (String × Nat)) (x : String × Nat)
    (cur longest : Nat) (start best : String) (r : List (String × Nat)),
    (splitRunsGo x rest).1 = x :: r →
    streakGoOrd x rest cur longest start best =
      runsEval (longest, best) ((r.length + cur, start) :: runsInfo (splitRunsGo x rest).2) := by
  intro rest
  induction rest with
  | nil =>
    intro x cur longest start best r hr
    injection hr with _ hr
    subst hr
    simp only [streakGoOrd, splitRunsGo, runsInfo, List.map_nil, runsEval, List.length_nil,
      Nat.zero_add]
  | cons e es ih =>
    intro x cur longest start best r hr
    obtain ⟨r', hg⟩ := splitRunsGo_fst e es
    by_cases hstep : e.2 = x.2 + 1
    · have hgo : splitRunsGo x (e :: es) = (x :: (splitRunsGo e es).1, (splitRunsGo e es).2) := by
        simp only [splitRunsGo, if_pos hstep]
      rw [hgo] at hr
      injection hr with _ hr
      simp only [hgo]
      have hone := ih e (cur + 1) longest start best r' hg
      simp only [streakGoOrd, if_pos hstep, hone]
      have harith : r'.length + (cur + 1) = r.length + cur := by
        rw [← hr, hg]
        simp only [List.length_cons]
        omega
      rw [harith]
    · have hgo : splitRunsGo x (e :: es) = ([x], (splitRunsGo e es).1 :: (splitRunsGo e es).2) := by
        simp only [splitRunsGo, if_neg hstep]
      rw [hgo] at hr
      injection hr with _ hr
      subst hr
      simp only [hgo, streakGoOrd, if_neg hstep, List.length_nil, Nat.zero_add]
      have hinfo : runsInfo ((splitRunsGo e es).1 :: (splitRunsGo e es).2) =
          (r'.length + 1, e.1) :: runsInfo (splitRunsGo e es).2 := by
        simp only [runsInfo, List.map_cons, hg, List.length_cons, List.head?_cons,
          Option.map_some', Option.getD_some]
      rw [hinfo]
      have hr2 : runsEval (longest, best)
            ((cur, start) :: (r'.length + 1, e.1) :: runsInfo (splitRunsGo e es).2) =
          runsEval (if cur > longest then (cur, start) else (longest, best))
            ((r'.length + 1, e.1) :: runsInfo (splitRunsGo e es).2) := rfl
      rw [hr2]
      by_cases hcl : cur > longest
      · rw [if_pos hcl, if_pos hcl]
        exact ih e 1 cur e.1 start r' hg
      · rw [if_neg hcl, if_neg hcl]
        exact ih e 1 longest e.1 best r' hg

theorem runsEval_spec : ∀ (L : List (Nat × String)) (acc : Nat × String),
    runsEval acc L =
      if (L.map Prod.fst).foldr max 0 > acc.1 then
        ((L.map Prod.fst).foldr max 0,
         ((L.find? (fun e => e.1 == (L.map Prod.fst).foldr max 0)).map Prod.snd).getD "")
      else acc := by
  intro L
  induction L with
  | nil =>
    intro acc
    simp [runsEval]
  | cons e L ih =>
    intro acc
    simp only [runsEval, List.map_cons, List.foldr_cons, ih]
    by_cases h1 : e.1 > acc.1
    · rw [if_pos h1]
      by_cases h2 : (L.map Prod.fst).foldr max 0 > e.1
      · have hmax : max e.1 ((L.map Prod.fst).foldr max 0) = (L.map Prod.fst).foldr max 0 :=
          Nat.max_eq_right (Nat.le_of_lt h2)
        have hne : ¬ ((fun x : Nat × String =>
            x.1 == (L.map Prod.fst).foldr max 0) e = true) := by
          simp only [beq_iff_eq]
          omega
        have hacc : (L.map Prod.fst).foldr max 0 > acc.1 := by omega
        rw [hmax, if_pos h2, if_pos hacc,
          @List.find?_cons_of_neg _ (fun x : Nat × String =>
            x.1 == (L.map Prod.fst).foldr max 0) e L hne]
      · have hmax : max e.1 ((L.map Prod.fst).foldr max 0) = e.1 :=
          Nat.max_eq_left (Nat.le_of_not_lt h2)
        have hpos : ((fun x : Nat × String => x.1 == e.1) e = true) := by simp
        rw [hmax, if_neg h2, if_pos h1,
          @List.find?_cons_of_pos _ (fun x : Nat × String => x.1 == e.1) e L hpos]
        simp
    · rw [if_neg h1]
      by_cases h2 : (L.map Prod.fst).foldr max 0 > acc.1
      · have hlt : e.1 < (L.map Prod.fst).foldr max 0 := by omega
        have hmax : max e.1 ((L.map Prod.fst).foldr max 0) = (L.map Prod.fst).foldr max 0 :=
          Nat.max_eq_right (Nat.le_of_lt hlt)
        have hne : ¬ ((fun x : Nat × String =>
            x.1 == (L.map Prod.fst).foldr max 0) e = true) := by
          simp only [beq_iff_eq]
          omega
        rw [hmax, if_pos h2, if_pos h2,
          @List.find?_cons_of_neg _ (fun x : Nat × String =>
            x.1 == (L.map Prod.fst).foldr max 0) e L hne]
      · have hmax_le : max e.1 ((L.map Prod.fst).foldr max 0) ≤ acc.1 :=
          Nat.max_le.2 ⟨Nat.le_of_not_lt h1, Nat.le_of_not_lt h2⟩
        have hacc : ¬ (max e.1 ((L.map Prod.fst).foldr max 0) > acc.1) := Nat.not_lt.2 hmax_le
        rw [if_neg h2, if_neg hacc]

theorem foldr_max_mem : ∀ L : List Nat, 0 < L.foldr max 0 → L.foldr max 0 ∈ L := by
  intro L
  induction L with
  | nil => intro h; simp at h
  | cons n L ih =>
    intro h
    simp only [List.foldr_cons] at h ⊢
    rcases Nat.le_total n (L.foldr max 0) with hle | hle
    · rw [Nat.max_eq_right hle] at h ⊢
      exact List.mem_cons_of_mem n (ih h)
    · rw [Nat.max_eq_left hle] at h ⊢
      exact List.mem_cons_self n L

theorem find?_fst_mem (L : List (Nat × String)) (m : Nat) (hm : m ∈ L.map Prod.fst) :
    ∃ v, L.find? (fun e => e.1 == m) = some v := by
  induction L with
  | nil => simp at hm
  | cons e L ih =>
    by_cases hhead : e.1 = m
    · exact ⟨e, @List.find?_cons_of_pos _ (fun x : Nat × String => x.1 == m) e L (by simp [hhead])⟩
    · have hm' : m ∈ L.map Prod.fst := by
        simp only [List.map_cons, List.mem_cons] at hm
        rcases hm with hm | hm
        · exact absurd hm.symm hhead
        · exact hm
      obtain ⟨v, hv⟩ := ih hm'
      exact ⟨v, by
        rw [@List.find?_cons_of_neg _ (fun x : Nat × String => x.1 == m) e L (by simp [hhead]), hv]⟩

/-- C4 (amended): on a stream with at least one timestamped message and
whose distinct date prefixes all parse, the streak section computes the
claim's specification — the length and start date of the longest run of
consecutive calendar dates over the ascending distinct date prefixes, the
earliest-scanned run winning ties. -/
theorem C4_streak (msgs : List NormMsg)
    (hne : msgDates msgs ≠ [])
    (hparse : ∀ d ∈ msgDates msgs, (parseDate d).isSome) :
    computeStreak msgs =
      some (specStreak ((msgDates msgs).map (fun d => (d, (parseDate d).getD 0)))) := by
  rcases hd : msgDates msgs with _ | ⟨d, ds⟩
  · exact absurd hd hne
  rw [hd] at hparse
  have hd1 : (parseDate d).isSome := hparse d (List.mem_cons_self d ds)
  have hds : ∀ e ∈ ds, (parseDate e).isSome := fun e he => hparse e (List.mem_cons_of_mem d he)
  have h0 : computeStreak msgs = streakGo d ds 1 0 d d := by
    rw [computeStreak, hd]
    rfl
  rw [h0, streakGo_bridge ds d 1 0 d d hd1 hds]
  congr 1
  obtain ⟨r, hr⟩ := splitRunsGo_fst (d, (parseDate d).getD 0)
    (ds.map (fun e => (e, (parseDate e).getD 0)))
  rw [streakGoOrd_runs _ _ 1 0 d d r hr]
  have hruns : runsInfo (splitRuns ((d, (parseDate d).getD 0) ::
      ds.map (fun e => (e, (parseDate e).getD 0)))) =
      (r.length + 1, d) :: runsInfo ((splitRunsGo (d, (parseDate d).getD 0)
        (ds.map (fun e => (e, (parseDate e).getD 0)))).2) := by
    simp only [splitRuns, runsInfo, List.map_cons, hr, List.length_cons, List.head?_cons,
      Option.map_some', Option.getD_some]
  set L := (r.length + 1, d) :: runsInfo ((splitRunsGo (d, (parseDate d).getD 0)
    (ds.map (fun e => (e, (parseDate e).getD 0)))).2) with hL
  have hmpos : 0 < (L.map Prod.fst).foldr max 0 := by
    rw [hL]
    simp only [List.map_cons, List.foldr_cons]
    exact Nat.lt_of_lt_of_le (Nat.succ_pos r.length) (Nat.le_max_left _ _)
  obtain ⟨v, hv⟩ := find?_fst_mem L _ (foldr_max_mem _ hmpos)
  rw [runsEval_spec, if_pos (by simpa using hmpos), hv]
  simp only [specStreak, List.map_cons, hruns, ← hL, hv]
  simp

theorem C4_witness : computeStreak msgsC4 = some (3, "2024-01-01") := by
  have h := C4_streak msgsC4 (by decide) (by decide)
  rw [h]
  rfl

/-- C4 counterexample: on the empty stream the code reports streak 1 with
start "", while the claim's specification over the (empty) set of dates
gives 0; and with an unparsable date prefix among two distinct dates the
scan raises instead of reporting anything. -/
theorem C4_counterexample :
    computeStreak ([] : List NormMsg) = some (1, "") ∧
    specStreak ((msgDates ([] : List NormMsg)).map (fun d => (d, (parseDate d).getD 0)))
      = (0, "") ∧
    ((1 : Nat), "") ≠ ((0 : Nat), "") ∧
    computeStreak [{ Timestamp := "2024-01-01 00:00:00" }, { Timestamp := "bad-timestamp" }]
      = none :=
  ⟨rfl, rfl, by decide, rfl⟩
